import Mathlib

/-!
A verification development for the metadata indexing and reconciliation
subsystem of ST-Manager (`core/data/cache.py`, `core/services/scan_service.py`,
`core/services/cache_service.py`).

The Python code is shallowly embedded: dictionaries become association lists,
floating-point timestamps become rationals, JSON-decoded tag columns become
`List String`, and the handful of external utilities (`extract_card_info`,
`calculate_token_count`, the sqlite store, the filesystem walk) become explicit
inputs of the functions that consume their results.  Python `str` operations
(`split('/')`, `rsplit('/', 1)`, `startswith`, slicing, `%`-quoting) are
modelled character-exactly on `String.data`.
-/

namespace STM

/-! ## Python string primitives -/

/-- Model of Python `s.split('/')`: split on every `'/'`, keeping empty
segments; `"".split('/') == ['']`. -/
def splitSlashAux : List Char → List Char → List (List Char)
  | [], acc => [acc.reverse]
  | c :: rest, acc =>
      if c = '/' then acc.reverse :: splitSlashAux rest []
      else splitSlashAux rest (c :: acc)

def splitSlash (s : String) : List String :=
  (splitSlashAux s.data []).map String.mk

/-- Join a list of segments with `'/'` (inverse of `splitSlash`). -/
def joinSlash : List String → String
  | [] => ""
  | [p] => p
  | p :: rest => p ++ "/" ++ joinSlash rest

/-- Model of Python `'/' in s`. -/
def containsSlash (s : String) : Bool := s.data.contains '/'

/-- Model of Python `s.startswith(p)`. -/
def strStarts (p s : String) : Bool := decide (p.data <+: s.data)

/-- Model of Python `s.endswith(p)`. -/
def strEnds (p s : String) : Bool := decide (p.data <:+ s.data)

/-- Model of Python `len(s)` (code points). -/
def strLen (s : String) : Nat := s.data.length

/-- Model of Python `s[n:]`. -/
def strDrop (s : String) (n : Nat) : String := String.mk (s.data.drop n)

/-- Model of Python `s.replace('\\', '/')` as used to normalise ids. -/
def normSlashes (s : String) : String :=
  String.mk (s.data.map (fun c => if c = '\\' then '/' else c))

/-- Model of Python `s.lower()` (ASCII range; card extensions are ASCII). -/
def strLower (s : String) : String := String.mk (s.data.map Char.toLower)

/-- Model of `card_id.rsplit('/', 1)[0] if '/' in card_id else ""`:
everything before the last `'/'`, or `""` when there is no slash. -/
def parentDir (s : String) : String :=
  if containsSlash s then joinSlash (splitSlash s).dropLast else ""

/-- Model of `os.path.basename` on a slash-normalised relative id:
the segment after the last `'/'`. -/
def baseName (s : String) : String := ((splitSlash s).getLast?).getD ""

/-- Code-point lexicographic order (how Python compares two `str`). -/
def charListLe : List Char → List Char → Bool
  | [], _ => true
  | _ :: _, [] => false
  | a :: as, b :: bs =>
      if a.toNat < b.toNat then true
      else if b.toNat < a.toNat then false
      else charListLe as bs

def strLe (a b : String) : Bool := charListLe a.data b.data

/-- String sort used wherever Python calls `sorted(...)` on strings.  Python's
sort is stable, and a stable sort's output is determined by the order alone,
so any stable implementation is observably the same; insertion sort is used
here. -/
def sortStr (l : List String) : List String :=
  l.insertionSort (fun a b => strLe a b = true)

/-- Keep-first deduplication (how iterating a Python `set`/`dict` built by
successive inserts is modelled; only the resulting set ever matters because
every use is followed by a sort or a membership test). -/
def dedupAcc (seen : List String) : List String → List String
  | [] => []
  | a :: rest =>
      if seen.contains a then dedupAcc seen rest
      else a :: dedupAcc (a :: seen) rest

def dedupKeep (l : List String) : List String := dedupAcc [] l

/-- Model of Python `sorted(list(set(a) | set(b)))` as used for tag pools:
deduplicate, then sort. -/
def sortedUnion (a b : List String) : List String := sortStr (dedupKeep (a ++ b))

/-! ## Percent-quoting (`urllib.parse.quote`, `safe='/'`) -/

def hexDigit (n : Nat) : Char :=
  if n < 10 then Char.ofNat (48 + n) else Char.ofNat (55 + n)

/-- UTF-8 bytes of one code point. -/
def utf8Bytes (c : Char) : List Nat :=
  let n := c.toNat
  if n < 0x80 then [n]
  else if n < 0x800 then [0xC0 + n / 64, 0x80 + n % 64]
  else if n < 0x10000 then [0xE0 + n / 4096, 0x80 + (n / 64) % 64, 0x80 + n % 64]
  else [0xF0 + n / 262144, 0x80 + (n / 4096) % 64, 0x80 + (n / 64) % 64, 0x80 + n % 64]

/-- `quote`'s always-safe set plus the default `safe='/'`. -/
def quoteSafe (c : Char) : Bool :=
  (('a' ≤ c && c ≤ 'z') || ('A' ≤ c && c ≤ 'Z') || ('0' ≤ c && c ≤ '9')
    || c = '_' || c = '.' || c = '-' || c = '~' || c = '/')

def quoteChar (c : Char) : List Char :=
  if quoteSafe c then [c]
  else (utf8Bytes c).flatMap (fun b => ['%', hexDigit (b / 16), hexDigit (b % 16)])

/-- Model of `urllib.parse.quote(s)` (default `safe='/'`). -/
def urlQuote (s : String) : String := String.mk (s.data.flatMap quoteChar)

/-- Model of Python `int(x)` on a non-negative float timestamp (truncation). -/
def ratTrunc (q : ℚ) : Int := q.num.tdiv q.den

/-- Stand-in for Python's float-to-string formatting inside f-strings; the
cache never inspects these strings, it only embeds them in URLs. -/
def ratStr (q : ℚ) : String := toString q.num ++ "/" ++ toString q.den

/-! ## Category counts (`category_counts` dict of `GlobalMetadataCache`) -/

/-- The `category_counts` dict: an insertion-ordered association list. -/
abbrev CountMap := List (String × Int)

/-- `counts[k] = v`, updating in place or appending a new key (dict semantics). -/
def setCount : CountMap → String → Int → CountMap
  | [], k, v => [(k, v)]
  | (k', v') :: rest, k, v =>
      if k' = k then (k, v) :: rest else (k', v') :: setCount rest k v

/-- `counts.get(k, 0)`. -/
def getCount (m : CountMap) (k : String) : Int := (List.lookup k m).getD 0

/-- The successive `current_path` values of `_update_category_count`'s loop:
`"a" :: "a/b" :: "a/b/c" :: []` for parts `["a","b","c"]` (with Python's
truthiness test on the running path). -/
def progressivePaths : List String → String → List String
  | [], _ => []
  | p :: rest, cur =>
      let cur' := if cur = "" then p else cur ++ "/" ++ p
      cur' :: progressivePaths rest cur'

def ancestorPaths (category : String) : List String :=
  progressivePaths (splitSlash category) ""

/-- One step of `_update_category_count`'s loop body: insert 0 when missing,
add `delta`, clamp a negative result to 0. -/
def bumpClamp (m : CountMap) (k : String) (delta : Int) : CountMap :=
  let v := getCount m k + delta
  setCount m k (if v < 0 then 0 else v)

/-- `GlobalMetadataCache._update_category_count` (skips the empty category). -/
def updateCategoryCount (m : CountMap) (category : String) (delta : Int) : CountMap :=
  if category = "" then m
  else (ancestorPaths category).foldl (fun acc p => bumpClamp acc p delta) m

/-! ## Data model -/

/-- One entry of a Bundle's `versions` list. -/
structure VersionStub where
  id : String
  filename : String
  last_modified : ℚ
  char_version : String
deriving Repr, DecidableEq

/-- A card object as built by `reload_from_db` (and mutated in place by the
incremental operations).  `bundle_dir` is `""` when the Python dict has no
such key; size is not part of the cache row set (the reload query does not
select `file_size`). -/
structure Card where
  id : String
  filename : String
  char_name : String
  tags : List String
  category : String
  creator : String
  char_version : String
  last_modified : ℚ
  file_hash : String
  token_count : Int
  dir_path : String
  is_bundle : Bool
  versions : List VersionStub
  is_favorite : Bool
  bundle_dir : String
  ui_summary : String
  source_link : String
  resource_folder : String
  image_url : String
  thumb_url : String
deriving Repr, DecidableEq

def mkImageUrl (id : String) (t : String) : String :=
  "/cards_file/" ++ urlQuote id ++ "?t=" ++ t

def mkThumbUrl (id : String) (t : String) : String :=
  "/api/thumbnail/" ++ urlQuote id ++ "?t=" ++ t

/-- The `GlobalMetadataCache` instance state.

`id_map` is kept implicit: in every reachable state of the Python object the
values of `id_map` are exactly the card objects of `cards` under their `id`
key (`reload_from_db` rebuilds both from the same `final_cards`, and every
incremental operation updates the two in lockstep on the shared objects), so
the embedding stores the single list and reads the map through `lookupCard`
and `idKeys`.  In-place mutation of a shared card dict becomes rewriting the
entry of `cards` holding that id. -/
structure CacheState where
  cards : List Card
  bundle_map : List (String × String)
  global_tags : List String
  category_counts : CountMap
  visible_folders : List String
  initialized : Bool
deriving Repr, DecidableEq

/-- `self.id_map.get(card_id)`. -/
def lookupCard (s : CacheState) (card_id : String) : Option Card :=
  s.cards.find? (fun c => c.id = card_id)

/-- The key set of `id_map`. -/
def idKeys (s : CacheState) : List String := s.cards.map (fun c => c.id)

/-- Rewrite the card object whose id is `card_id` (in-place dict mutation). -/
def replaceCard (cards : List Card) (card_id : String) (c' : Card) : List Card :=
  cards.map (fun c => if c.id = card_id then c' else c)

/-! ## Incremental operations (`cache.py`) -/

/-- A `new_data` dict passed to `update_card_data`: the patchable fields of a
card; `none` models an absent key.  Callers patch metadata fields, never `id`
(id changes go through the move operations). -/
structure CardPatch where
  char_name : Option String := none
  tags : Option (List String) := none
  category : Option String := none
  creator : Option String := none
  char_version : Option String := none
  last_modified : Option ℚ := none
  file_hash : Option String := none
  token_count : Option Int := none
  is_favorite : Option Bool := none
  ui_summary : Option String := none
  source_link : Option String := none
  resource_folder : Option String := none
deriving Repr, DecidableEq

/-- `for k, v in new_data.items(): card[k] = v`. -/
def applyPatch (c : Card) (p : CardPatch) : Card :=
  { c with
    char_name := p.char_name.getD c.char_name
    tags := p.tags.getD c.tags
    category := p.category.getD c.category
    creator := p.creator.getD c.creator
    char_version := p.char_version.getD c.char_version
    last_modified := p.last_modified.getD c.last_modified
    file_hash := p.file_hash.getD c.file_hash
    token_count := p.token_count.getD c.token_count
    is_favorite := p.is_favorite.getD c.is_favorite
    ui_summary := p.ui_summary.getD c.ui_summary
    source_link := p.source_link.getD c.source_link
    resource_folder := p.resource_folder.getD c.resource_folder }

/-- `GlobalMetadataCache.update_card_data`. -/
def update_card_data (s : CacheState) (card_id : String) (p : CardPatch) : CacheState :=
  match lookupCard s card_id with
  | none => s
  | some card =>
      let old_category := card.category
      let new_category := p.category.getD old_category
      let counts1 :=
        if old_category ≠ new_category then
          updateCategoryCount (updateCategoryCount s.category_counts old_category (-1))
            new_category 1
        else s.category_counts
      let card1 := applyPatch card p
      let mtime := card1.last_modified
      let card2 := { card1 with
        image_url := mkImageUrl card1.id (ratStr mtime)
        thumb_url := mkThumbUrl card1.id (ratStr mtime) }
      { s with
        cards := replaceCard s.cards card_id card2
        category_counts := counts1
        global_tags :=
          match p.tags with
          | some ts => sortedUnion s.global_tags ts
          | none => s.global_tags }

/-- `GlobalMetadataCache.update_tags_update`. -/
def update_tags_update (s : CacheState) (card_id : String) (new_tags : List String) :
    CacheState :=
  match lookupCard s card_id with
  | none => s
  | some card =>
      { s with
        cards := replaceCard s.cards card_id { card with tags := new_tags }
        global_tags := sortedUnion s.global_tags new_tags }

/-- `GlobalMetadataCache.toggle_favorite_update`. -/
def toggle_favorite_update (s : CacheState) (card_id : String) (new_status : Bool) :
    CacheState :=
  match lookupCard s card_id with
  | none => s
  | some card =>
      { s with cards := replaceCard s.cards card_id { card with is_favorite := new_status } }

/-- `GlobalMetadataCache.move_card_update`; `mtime?` is the result of
`os.path.getmtime(full_path)` (`none` models the swallowed `OSError`, which
leaves `last_modified` untouched). -/
def move_card_update (s : CacheState) (old_id new_id old_category new_category : String)
    (new_filename : String) (mtime? : Option ℚ) : CacheState :=
  match lookupCard s old_id with
  | none => s
  | some card =>
      let lm := mtime?.getD card.last_modified
      let card1 := { card with
        id := new_id
        filename := new_filename
        category := new_category
        last_modified := lm
        image_url := mkImageUrl new_id (ratStr lm)
        thumb_url := mkThumbUrl new_id (ratStr lm) }
      let s1 := { s with cards := replaceCard s.cards old_id card1 }
      if old_category ≠ new_category then
        let counts1 :=
          updateCategoryCount (updateCategoryCount s1.category_counts old_category (-1))
            new_category 1
        { s1 with category_counts := counts1 }
      else s1

/-- `GlobalMetadataCache.delete_card_update` (a no-op when the id is absent). -/
def delete_card_update (s : CacheState) (card_id : String) : CacheState :=
  match lookupCard s card_id with
  | none => s
  | some card =>
      { s with
        cards := s.cards.eraseP (fun c => c.id = card_id)
        category_counts := updateCategoryCount s.category_counts card.category (-1) }

/-- `GlobalMetadataCache.add_card_update`. -/
def add_card_update (s : CacheState) (c : Card) : CacheState :=
  { s with
    cards := s.cards ++ [c]
    category_counts := updateCategoryCount s.category_counts c.category 1
    global_tags := sortedUnion s.global_tags c.tags }

/-- `GlobalMetadataCache._recalculate_counts`. -/
def recalcCounts (cards : List Card) : CountMap :=
  cards.foldl (fun m c => updateCategoryCount m c.category 1) []

/-- The per-card rewrite inside `move_folder_update`'s loop (runs on every
card whose id starts with `oldP + "/"`). -/
def moveFolderRewrite (oldP newP : String) (card : Card) : Card :=
  let new_id := newP ++ strDrop card.id (strLen oldP)
  let old_cat := card.category
  let new_cat :=
    if old_cat = oldP then newP
    else if strStarts (oldP ++ "/") old_cat then newP ++ strDrop old_cat (strLen oldP)
    else parentDir new_id
  let b_dir := card.bundle_dir
  let b_dir' :=
    if card.is_bundle then
      if b_dir = oldP then newP
      else if strStarts (oldP ++ "/") b_dir then newP ++ strDrop b_dir (strLen oldP)
      else b_dir
    else b_dir
  { card with
    id := new_id
    category := new_cat
    bundle_dir := b_dir'
    image_url := mkImageUrl new_id (ratStr card.last_modified)
    thumb_url := mkThumbUrl new_id (ratStr card.last_modified) }

/-- The `visible_folders` rewrite of `move_folder_update`. -/
def substFolder (oldP newP : String) (f : String) : String :=
  if f = oldP then newP
  else if strStarts (oldP ++ "/") f then newP ++ strDrop f (strLen oldP)
  else f

/-- `GlobalMetadataCache.move_folder_update`. -/
def move_folder_update (s : CacheState) (oldP newP : String) : CacheState :=
  let cards' := s.cards.map (fun c =>
    if strStarts (oldP ++ "/") c.id then moveFolderRewrite oldP newP c else c)
  { s with
    cards := cards'
    category_counts := recalcCounts cards'
    visible_folders := sortStr (s.visible_folders.map (substFolder oldP newP)) }

/-- `GlobalMetadataCache.rename_folder_update` (delegates to the move). -/
def rename_folder_update (s : CacheState) (old_path new_path : String) : CacheState :=
  move_folder_update s old_path new_path

/-! ## Full rebuild (`reload_from_db`) -/

/-- One row of the reload query over `card_metadata` (`id, char_name, tags,
category, creator, char_version, last_modified, file_hash, token_count,
is_favorite`); `tags` is the JSON-decoded list (the decode-or-`[]` fallback
happens at this boundary). -/
structure Row where
  id : String
  char_name : String
  tags : List String
  category : String
  creator : String
  char_version : String
  last_modified : ℚ
  file_hash : String
  token_count : Int
  is_favorite : Bool
deriving Repr, DecidableEq

/-- One value of the Sidecar Note Store mapping (`load_ui_data`). -/
structure UiInfo where
  summary : String := ""
  link : String := ""
  resource_folder : String := ""
deriving Repr, DecidableEq, Inhabited

/-- The `card_data` dict built for each fetched row. -/
def mkRawCard (row : Row) : Card :=
  let card_id := normSlashes row.id
  { id := card_id
    filename := baseName card_id
    char_name := row.char_name
    tags := row.tags
    category := normSlashes row.category
    creator := row.creator
    char_version := row.char_version
    last_modified := row.last_modified
    file_hash := row.file_hash
    token_count := row.token_count
    dir_path := parentDir card_id
    is_bundle := false
    versions := []
    is_favorite := row.is_favorite
    bundle_dir := ""
    ui_summary := ""
    source_link := ""
    resource_folder := ""
    image_url := ""
    thumb_url := "" }

/-- `GlobalMetadataCache._enrich_card_ui`. -/
def enrichCardUi (ui_data : List (String × UiInfo)) (is_bundle : Bool) (card : Card) :
    Card :=
  let key := if is_bundle then card.bundle_dir else card.id
  let ui_info :=
    match List.lookup key ui_data with
    | some i => i
    | none => if is_bundle then (List.lookup card.id ui_data).getD default else default
  let t := toString (ratTrunc card.last_modified)
  { card with
    ui_summary := ui_info.summary
    source_link := ui_info.link
    resource_folder := ui_info.resource_folder
    image_url := mkImageUrl card.id t
    thumb_url := mkThumbUrl card.id t }

/-- Version-stub projection for a Bundle's `versions` list. -/
def toStub (v : Card) : VersionStub :=
  { id := v.id, filename := v.filename, last_modified := v.last_modified,
    char_version := v.char_version }

/-- Descending stable sort by `last_modified`
(`version_list.sort(key=..., reverse=True)`; a stable sort's output is
determined by the order alone, so insertion sort models `list.sort`). -/
def sortByMtimeDesc (l : List Card) : List Card :=
  l.insertionSort (fun a b => b.last_modified ≤ a.last_modified)

/-- Aggregation of one bundle directory's group (`none` mirrors the
`if not version_list: continue` guard). -/
def mkBundleCard (ui_data : List (String × UiInfo)) (dir_path : String)
    (version_list : List Card) : Option Card :=
  match sortByMtimeDesc version_list with
  | [] => none
  | latest_card :: rest =>
      let bundle_card := { latest_card with
        is_bundle := true
        bundle_dir := dir_path
        versions := (latest_card :: rest).map toStub
        category := parentDir dir_path }
      some (enrichCardUi ui_data true bundle_card)

/-- The per-card bump of the rebuild's count loop (`new_cat_counts`): count the
category itself, then every strict ancestor path (no clamping here, and the
empty category *is* counted by the first bump). -/
def reloadBump (m : CountMap) (k : String) : CountMap := setCount m k (getCount m k + 1)

def reloadCountCard (m : CountMap) (cat : String) : CountMap :=
  let m1 := reloadBump m cat
  if cat = "" then m1
  else ((ancestorPaths cat).filter (fun p => p ≠ cat)).foldl reloadBump m1

def reloadCounts (final_cards : List Card) : CountMap :=
  final_cards.foldl (fun m c => reloadCountCard m c.category) []

/-- The directories a card's category makes visible (`derived_folders`). -/
def derivedOf (c : Card) : List String :=
  if c.category = "" then [] else c.category :: ancestorPaths c.category

/-- The successfully loaded inputs of one rebuild: the directory walk, the
Sidecar Note Store, the fetched rows and the set of directories holding the
`.bundle` sentinel file. -/
structure ReloadData where
  physical_folders : List String
  ui_data : List (String × UiInfo)
  rows : List Row
  sentinels : List String
deriving Repr

/-- Is `d` a bundle directory (`d` non-empty and `<d>/.bundle` exists)? -/
def isBundleDir (inp : ReloadData) (d : String) : Bool :=
  d ≠ "" && inp.sentinels.contains d

/-- Steps 1-3 of the rebuild: raw cards, partition, aggregation.  Returns the
`final_cards` list and the new `bundle_map` pairs. -/
def buildFinalCards (inp : ReloadData) : List Card × List (String × String) :=
  let raw := inp.rows.map mkRawCard
  let plains := (raw.filter (fun c => !(isBundleDir inp c.dir_path))).map
    (enrichCardUi inp.ui_data false)
  let bundleDirList := dedupKeep ((raw.map (fun c => c.dir_path)).filter (isBundleDir inp))
  let bundlePairs := bundleDirList.filterMap (fun d =>
    (mkBundleCard inp.ui_data d (raw.filter (fun c => c.dir_path = d))).map
      (fun b => (d, b)))
  (plains ++ bundlePairs.map (fun p => p.2), bundlePairs.map (fun p => (p.1, p.2.id)))

/-- The successful body of `reload_from_db` (everything inside the `try`),
producing the structure that replaces the live one. -/
def applyReload (inp : ReloadData) : CacheState :=
  let fb := buildFinalCards inp
  let final_cards := fb.1
  let raw := inp.rows.map mkRawCard
  let bundleDirList := dedupKeep ((raw.map (fun c => c.dir_path)).filter (isBundleDir inp))
  let new_global_tags := sortStr (dedupKeep (final_cards.flatMap (fun c => c.tags)))
  let counts0 := reloadCounts final_cards
  let derived := final_cards.flatMap derivedOf
  let all_visible := sortStr (dedupKeep (derived ++ inp.physical_folders))
  let visible := all_visible.filter (fun f =>
    !(bundleDirList.contains f) && f ≠ "" && f ≠ ".")
  let counts := visible.foldl
    (fun m f => if (List.lookup f m).isSome then m else setCount m f 0) counts0
  { cards := final_cards
    bundle_map := fb.2
    global_tags := new_global_tags
    category_counts := counts
    visible_folders := visible
    initialized := true }

/-- The fallible data sources of one rebuild: the physical-folder walk's
failure is absorbed by its own inner `try` (yielding a partial folder set),
while a raised exception in `load_ui_data` or in the retried row fetch
propagates to the outer `except`. -/
structure ReloadSources where
  physical_folders : List String
  ui_fetch : Except Unit (List (String × UiInfo))
  db_fetch : Except Unit (List Row)
  sentinels : List String

/-- `GlobalMetadataCache.reload_from_db`: any exception keeps the previous
structure (the `except` branch only logs), otherwise the freshly built
structure replaces every field and `initialized` becomes true. -/
def reload_from_db (s : CacheState) (src : ReloadSources) : CacheState :=
  match src.ui_fetch, src.db_fetch with
  | Except.ok ui, Except.ok rows =>
      applyReload ⟨src.physical_folders, ui, rows, src.sentinels⟩
  | _, _ => s

/-! ## Scanner (`scan_service.py`) -/

/-- `is_card_file` from `core/utils/filesystem.py`:
`filename.lower().endswith(('.png', '.json'))`. -/
def is_card_file (filename : String) : Bool :=
  strEnds ".png" (strLower filename) || strEnds ".json" (strLower filename)

/-- The pre-scan snapshot row (`db_files_map` entry): each field already has
the `or`-default applied (`row[i] or 0` / `or ""`), so a SQL `NULL` appears
here as the default. -/
structure DbInfo where
  mtime : ℚ
  size : Int
  tokens : Int
  hash : String
  fav : Int
deriving Repr, DecidableEq

/-- One `os.stat` result (`st_mtime`, `st_size`). -/
structure FileStat where
  mtime : ℚ
  size : Int
deriving Repr, DecidableEq

/-- The outcome of `extract_card_info` plus the normalisation the scan loop
performs on it (data-block resolution, tag list cleaning, `char_name`
fallback, `calculate_token_count`, `get_wi_meta`): the external codec and
tokenizer are opaque to this subsystem, so their resolved outputs are the
model's inputs. -/
structure ScanExtract where
  char_name : String
  description : String
  first_mes : String
  mes_example : String
  tags : List String
  creator : String
  char_version : String
  token_count : Int
  has_wi : Bool
  wi_name : String
deriving Repr, DecidableEq

/-- The tuple bound by the scan loop's `INSERT OR REPLACE INTO card_metadata`. -/
structure ScanRecord where
  id : String
  char_name : String
  description : String
  first_mes : String
  mes_example : String
  tags : List String
  category : String
  creator : String
  char_version : String
  last_modified : ℚ
  file_hash : String
  file_size : Int
  token_count : Int
  has_wi : Bool
  wi_name : String
  is_favorite : Int
deriving Repr, DecidableEq

inductive ScanAction where
  | skip : ScanAction
  | upsert : ScanRecord → ScanAction
deriving Repr, DecidableEq

/-- The classification and write decision of `_perform_scan_logic` for one
card file already stat'ed as `st`: new / changed (mtime beyond the 0.01 s
epsilon or size differs) / token backfill (unchanged, zero token count,
size over 100 bytes) / unchanged; an extraction failure (`extract = none`)
skips the file. -/
def scanFile (db_info : Option DbInfo) (st : FileStat)
    (extract : Option ScanExtract) (file_id category : String) : ScanAction :=
  let changed :=
    match db_info with
    | none => true
    | some i => decide (st.mtime > i.mtime + 1/100) || decide (st.size ≠ i.size)
  let need_update :=
    changed ||
      (match db_info with
       | none => false
       | some i => decide (i.tokens = 0) && decide (st.size > 100))
  if need_update then
    match extract with
    | none => ScanAction.skip
    | some info =>
        let keep_fav := match db_info with | none => 0 | some i => i.fav
        let file_hash :=
          if changed then "" else (match db_info with | none => "" | some i => i.hash)
        ScanAction.upsert
          { id := file_id
            char_name := info.char_name
            description := info.description
            first_mes := info.first_mes
            mes_example := info.mes_example
            tags := info.tags
            category := category
            creator := info.creator
            char_version := info.char_version
            last_modified := st.mtime
            file_hash := file_hash
            file_size := st.size
            token_count := info.token_count
            has_wi := info.has_wi
            wi_name := info.wi_name
            is_favorite := keep_fav }
  else ScanAction.skip

/-- One file met by the walk: its directory-derived category, its name, the
`os.stat` outcome (`none` models the swallowed `OSError`) and the
`extract_card_info` outcome. -/
structure FsFile where
  category : String
  name : String
  stat : Option FileStat
  extract : Option ScanExtract
deriving Repr

def fsFileId (f : FsFile) : String :=
  if f.category = "" then f.name else f.category ++ "/" ++ f.name

/-- The store snapshot taken at the top of a scan cycle. -/
def snapshotOf (r : ScanRecord) : DbInfo :=
  { mtime := r.last_modified, size := r.file_size, tokens := r.token_count,
    hash := r.file_hash, fav := r.is_favorite }

/-- `INSERT OR REPLACE` into the store map. -/
def storePut : List (String × ScanRecord) → String → ScanRecord →
    List (String × ScanRecord)
  | [], k, r => [(k, r)]
  | (k', r') :: rest, k, r =>
      if k' = k then (k, r) :: rest else (k', r') :: storePut rest k r

/-- The walk-loop body of `_perform_scan_logic` for one directory entry:
skip non-card names, absorb a failed `os.stat`, then classify and upsert. -/
def scanStep (snap : List (String × DbInfo)) (st : List (String × ScanRecord))
    (f : FsFile) : List (String × ScanRecord) :=
  if is_card_file f.name then
    match f.stat with
    | none => st
    | some fst =>
        match scanFile (List.lookup (fsFileId f) snap) fst f.extract
            (fsFileId f) f.category with
        | ScanAction.skip => st
        | ScanAction.upsert r => storePut st (fsFileId f) r
  else st

/-- One whole scan cycle of `_perform_scan_logic` against store `store` and
walk result `files`: snapshot, per-file classification and upsert, then
deletion of every snapshot id not found on disk. -/
def scanCycle (store : List (String × ScanRecord)) (files : List FsFile) :
    List (String × ScanRecord) :=
  let snap := store.map (fun p => (p.1, snapshotOf p.2))
  let found := (files.filter (fun f => is_card_file f.name)).map fsFileId
  let afterUpserts := files.foldl (scanStep snap) store
  afterUpserts.filter (fun p => !(List.lookup p.1 snap).isSome || found.contains p.1)

/-! ## Debounce timers and the suppression window -/

/-- Fire times of a restartable debounce timer (`request_scan`'s
`scan_debounce_timer`, `schedule_reload`'s `reload_timer`): each call cancels
the pending timer and starts a fresh one for `delay` seconds; a timer that is
never cancelled fires and enqueues its action.  `calls` is the ascending list
of call instants. -/
def fireTimes (delay : ℚ) : List ℚ → List ℚ
  | [] => []
  | [t] => [t + delay]
  | t :: t' :: rest =>
      if t' < t + delay then fireTimes delay (t' :: rest)
      else (t + delay) :: fireTimes delay (t' :: rest)

/-- Modelled from the spec: `ctx.update_fs_ignore(seconds)` (the body of
`core.context` is not among the sources) declares a suppression deadline
`now + seconds`. -/
def suppressionDeadline (now seconds : ℚ) : ℚ := now + seconds

/-- Modelled from the spec: `ctx.should_ignore_fs_event()` (the body of
`core.context` is not among the sources) is true while
"now ≤ suppression deadline". -/
def shouldIgnoreFsEvent (now deadline : ℚ) : Bool := decide (now ≤ deadline)

/-- One raw watchdog event: directory flag, source path, arrival instant. -/
structure FsEvent where
  is_directory : Bool
  src_path : String
  time : ℚ
deriving Repr

/-- `Handler.on_any_event` of `start_fs_watcher`: returns whether the event
reaches `request_scan` (true) or is dropped by one of the three guards. -/
def onAnyEvent (deadline : ℚ) (e : FsEvent) : Bool :=
  if e.is_directory then false
  else if shouldIgnoreFsEvent e.time deadline then false
  else if !is_card_file e.src_path then false
  else true

/-! ## Well-formed paths, reachable cache states -/

/-- A well-formed relative path: every `'/'`-separated segment is non-empty
(in particular the path itself is non-empty, has no leading or trailing
slash and no `"//"`).  Ids written by the scanner have this shape. -/
def WFPath (s : String) : Prop := ∀ p ∈ splitSlash s, p ≠ ""

instance (s : String) : Decidable (WFPath s) := by unfold WFPath; infer_instance

/-- A well-formed category: the root category `""` or a well-formed path. -/
def WFCat (s : String) : Prop := s = "" ∨ WFPath s

instance (s : String) : Decidable (WFCat s) := by unfold WFCat; infer_instance

/-- `γ` lies at or strictly below category `c`. -/
def underCat (c γ : String) : Bool := γ = c || strStarts (c ++ "/") γ

/-- The number of display entries at or strictly below category `c`. -/
def realCount (cards : List Card) (c : String) : ℕ :=
  cards.countP (fun x => underCat c x.category)

/-- The root-level (slash-free, non-empty) keys of a counts dict. -/
def rootKeys (m : CountMap) : List String :=
  dedupKeep ((m.map Prod.fst).filter (fun k => !containsSlash k && k ≠ ""))

/-- The sum of the root-level category counts. -/
def rootKeySum (m : CountMap) : ℤ := ((rootKeys m).map (getCount m)).sum

/-- The first path segment of a category path (`category.split("/")[0]`). -/
def rootSeg (γ : String) : String := ((splitSlash γ).headD "")

/-- The structural invariant of the Cache Index: display entries carry
well-formed ids and categories, `id_map`'s key set is duplicate-free, and
every non-empty category's count equals the number of display entries at or
below it. -/
def CacheInv (s : CacheState) : Prop :=
  (∀ x ∈ s.cards, WFPath x.id ∧ WFCat x.category) ∧
  (idKeys s).Nodup ∧
  (∀ c : String, c ≠ "" → getCount s.category_counts c = (realCount s.cards c : Int))

/-- Rebuild inputs as the scanner maintains them: ids are well-formed paths,
the stored `category` column is the id's directory part, and ids are unique
(`id` is the table's key). -/
structure WFReload (inp : ReloadData) : Prop where
  wf_ids : ∀ r ∈ inp.rows, WFPath (normSlashes r.id)
  cat_eq : ∀ r ∈ inp.rows, normSlashes r.category = parentDir (normSlashes r.id)
  nodup : (inp.rows.map (fun r => normSlashes r.id)).Nodup

/-- One incremental mutation as the Mutation API issues it, with that API's
call contract as side conditions: fresh well-formed target paths, and the
`old_category` argument naming the card's actual category. -/
inductive Step : CacheState → CacheState → Prop
  | add (s : CacheState) (c : Card) (hwfid : WFPath c.id) (hwfcat : WFCat c.category)
      (hfresh : c.id ∉ idKeys s) :
      Step s (add_card_update s c)
  | del (s : CacheState) (card_id : String) :
      Step s (delete_card_update s card_id)
  | upd (s : CacheState) (card_id : String) (p : CardPatch)
      (hwfcat : ∀ γ, p.category = some γ → WFCat γ) :
      Step s (update_card_data s card_id p)
  | tags (s : CacheState) (card_id : String) (new_tags : List String) :
      Step s (update_tags_update s card_id new_tags)
  | fav (s : CacheState) (card_id : String) (b : Bool) :
      Step s (toggle_favorite_update s card_id b)
  | move (s : CacheState) (old_id new_id old_category new_category new_filename : String)
      (mtime? : Option ℚ) (hwfid : WFPath new_id) (hwfcat : WFCat new_category)
      (hold : ∀ c, lookupCard s old_id = some c → c.category = old_category)
      (hfresh : new_id = old_id ∨ new_id ∉ idKeys s) :
      Step s (move_card_update s old_id new_id old_category new_category new_filename mtime?)
  | movedir (s : CacheState) (oldP newP : String)
      (hwfold : WFPath oldP) (hwfnew : WFPath newP)
      (hfresh : ∀ id ∈ idKeys s, strStarts (newP ++ "/") id = false) :
      Step s (move_folder_update s oldP newP)

/-- States of the Cache Index: a full rebuild from well-formed store contents,
followed by any sequence of incremental operations. -/
inductive Reachable : CacheState → Prop
  | rebuild (inp : ReloadData) (h : WFReload inp) : Reachable (applyReload inp)
  | step {s t : CacheState} : Reachable s → Step s t → Reachable t

/-- The raw cards a rebuild groups under bundle directory `d`. -/
def bundleMembers (inp : ReloadData) (d : String) : List Card :=
  (inp.rows.map mkRawCard).filter (fun c => c.dir_path = d)

/-! ## Concrete instances used by witnesses and counterexamples -/

/-- A store row as the scanner writes it (category = directory part of id). -/
def mkRow (id : String) (tags : List String) (mtime : ℚ) : Row :=
  { id := id, char_name := "N" ++ id, tags := tags, category := parentDir id,
    creator := "", char_version := "", last_modified := mtime, file_hash := "",
    token_count := 0, is_favorite := false }

/-- A small library: two plain cards plus a two-version bundle under `"D"`. -/
def inpA : ReloadData :=
  { physical_folders := []
    ui_data := []
    rows := [mkRow "Fox.png" ["a"] 100, mkRow "Cats/Tom.png" ["a", "b"] 200,
             mkRow "D/a.png" [] 100, mkRow "D/b.png" [] 200]
    sentinels := ["D"] }

/-- A fresh root-category card. -/
def cardNew : Card :=
  { id := "New.png", filename := "New.png", char_name := "New", tags := [],
    category := "", creator := "", char_version := "", last_modified := 300,
    file_hash := "", token_count := 0, dir_path := "", is_bundle := false,
    versions := [], is_favorite := false, bundle_dir := "", ui_summary := "",
    source_link := "", resource_folder := "", image_url := "", thumb_url := "" }

/-- A concrete store record. -/
def rec0 : ScanRecord :=
  { id := "a.png", char_name := "n", description := "", first_mes := "",
    mes_example := "", tags := [], category := "", creator := "", char_version := "",
    last_modified := 100, file_hash := "h", file_size := 500, token_count := 3,
    has_wi := false, wi_name := "", is_favorite := 1 }

/-! # Theorems -/

/-- C5: if any of the rebuild's fallible loads raises, `reload_from_db` leaves
the previously published structure — `cards`, `bundle_map` (and hence the
implicit `id_map`), `global_tags`, `category_counts`, `visible_folders` — and
the `initialized` flag exactly as they were; no subset of fields is
overwritten. -/
theorem c5_rebuild_failure_keeps_state (s : CacheState) (src : ReloadSources)
    (h : src.ui_fetch = Except.error () ∨ src.db_fetch = Except.error ()) :
    reload_from_db s src = s ∧
      (reload_from_db s src).cards = s.cards ∧
      (reload_from_db s src).bundle_map = s.bundle_map ∧
      (reload_from_db s src).global_tags = s.global_tags ∧
      (reload_from_db s src).category_counts = s.category_counts ∧
      (reload_from_db s src).visible_folders = s.visible_folders ∧
      (reload_from_db s src).initialized = s.initialized := by
  have he : reload_from_db s src = s := by
    unfold reload_from_db
    rcases h with h | h
    · rw [h]
    · rw [h]; cases src.ui_fetch <;> rfl
  exact ⟨he, by rw [he], by rw [he], by rw [he], by rw [he], by rw [he], by rw [he]⟩

theorem c5_witness :
    ((⟨["x"], Except.error (), Except.ok [], []⟩ : ReloadSources).ui_fetch = Except.error () ∨
      (⟨["x"], Except.error (), Except.ok [], []⟩ : ReloadSources).db_fetch = Except.error ()) ∧
    reload_from_db (applyReload inpA) ⟨["x"], Except.error (), Except.ok [], []⟩ =
      applyReload inpA :=
  ⟨Or.inl rfl,
   (c5_rebuild_failure_keeps_state (applyReload inpA) ⟨["x"], Except.error (), Except.ok [], []⟩
     (Or.inl rfl)).1⟩

/-- C7: N trigger calls, each arriving less than the debounce delay after the
previous one, produce exactly one timer firing (one scan/rebuild execution),
and it happens after the quiet period — strictly later than every call. -/
theorem c7_debounce_coalescing (delay : ℚ) (hd : 0 < delay) (calls : List ℚ)
    (hne : calls ≠ [])
    (hchain : List.Chain' (fun a b => a ≤ b ∧ b - a < delay) calls) :
    fireTimes delay calls = [calls.getLast hne + delay] ∧
      ∀ t ∈ calls, t < calls.getLast hne + delay := by
  induction calls with
  | nil => exact absurd rfl hne
  | cons t rest ih =>
    cases rest with
    | nil =>
      refine ⟨rfl, ?_⟩
      intro u hu
      simp only [List.mem_singleton] at hu
      subst hu
      simp [List.getLast]
      linarith
    | cons t' rest' =>
      have hch := hchain
      rw [List.chain'_cons] at hch
      obtain ⟨⟨hle, hgap⟩, hchain'⟩ := hch
      have hne' : (t' :: rest') ≠ [] := by simp
      obtain ⟨hfire, hall⟩ := ih hne' hchain'
      have hlt : t' < t + delay := by linarith
      have hlast : (t :: t' :: rest').getLast hne = (t' :: rest').getLast hne' := by
        simp [List.getLast_cons]
      constructor
      · rw [show fireTimes delay (t :: t' :: rest') = fireTimes delay (t' :: rest') by
          simp [fireTimes, hlt]]
        rw [hfire, hlast]
      · intro u hu
        rw [hlast]
        rcases List.mem_cons.mp hu with h | h
        · subst h
          have := hall t' (by simp)
          linarith
        · exact hall u h

theorem c7_witness :
    (0 : ℚ) < 1 ∧
      fireTimes 1 [0, 1/2, 3/4] = [3/4 + 1] ∧
      ∀ t ∈ [(0 : ℚ), 1/2, 3/4], t < 3/4 + 1 := by
  have h := c7_debounce_coalescing 1 (by norm_num) [0, 1/2, 3/4] (by simp)
    (by constructor
        · norm_num
        · constructor
          · norm_num
          · simp)
  exact ⟨by norm_num, h.1, h.2⟩

/-- C8: a watch event on a card file at `t ≤ deadline` never reaches
`request_scan`; one at `t > deadline` does, and the debounced scan timer it
starts fires (enqueues the scan) one delay later when left alone. -/
theorem c8_suppression_window (deadline : ℚ) (e : FsEvent)
    (hdir : e.is_directory = false) (hcard : is_card_file e.src_path = true) :
    (e.time ≤ deadline → onAnyEvent deadline e = false) ∧
    (e.time > deadline →
      onAnyEvent deadline e = true ∧ fireTimes 1 [e.time] = [e.time + 1]) := by
  constructor
  · intro h
    simp [onAnyEvent, shouldIgnoreFsEvent, hdir, h]
  · intro h
    refine ⟨?_, rfl⟩
    simp [onAnyEvent, shouldIgnoreFsEvent, hdir, hcard, not_le.mpr h]

theorem c8_witness :
    (⟨false, "Cats/Tom.png", 5⟩ : FsEvent).is_directory = false ∧
    is_card_file (⟨false, "Cats/Tom.png", 5⟩ : FsEvent).src_path = true ∧
    ((5 : ℚ) ≤ 7 → onAnyEvent 7 ⟨false, "Cats/Tom.png", 5⟩ = false) ∧
    ((5 : ℚ) > 3 → onAnyEvent 3 ⟨false, "Cats/Tom.png", 5⟩ = true) := by
  have h1 := c8_suppression_window 7 ⟨false, "Cats/Tom.png", 5⟩ rfl (by decide)
  have h2 := c8_suppression_window 3 ⟨false, "Cats/Tom.png", 5⟩ rfl (by decide)
  exact ⟨rfl, by decide, h1.1, fun h => (h2.2 h).1⟩

/-- C4: per-file scan classification — a new id is inserted with the full
extracted metadata (hash written empty), a changed file (mtime beyond the
0.01 s epsilon or size difference) is re-extracted and upserted with the
hash written empty, an unchanged file with zero stored token count and size
over the 100-byte threshold is re-extracted and upserted with the stored
hash preserved, and otherwise no store write occurs. -/
theorem c4_scan_classification (i : DbInfo) (st : FileStat) (e : ScanExtract)
    (file_id category : String) :
    (scanFile none st (some e) file_id category = ScanAction.upsert
      ⟨file_id, e.char_name, e.description, e.first_mes, e.mes_example, e.tags, category,
       e.creator, e.char_version, st.mtime, "", st.size, e.token_count, e.has_wi,
       e.wi_name, 0⟩) ∧
    ((st.mtime > i.mtime + 1/100 ∨ st.size ≠ i.size) →
      scanFile (some i) st (some e) file_id category = ScanAction.upsert
        ⟨file_id, e.char_name, e.description, e.first_mes, e.mes_example, e.tags, category,
         e.creator, e.char_version, st.mtime, "", st.size, e.token_count, e.has_wi,
         e.wi_name, i.fav⟩) ∧
    (¬(st.mtime > i.mtime + 1/100 ∨ st.size ≠ i.size) → i.tokens = 0 → st.size > 100 →
      scanFile (some i) st (some e) file_id category = ScanAction.upsert
        ⟨file_id, e.char_name, e.description, e.first_mes, e.mes_example, e.tags, category,
         e.creator, e.char_version, st.mtime, i.hash, st.size, e.token_count, e.has_wi,
         e.wi_name, i.fav⟩) ∧
    (¬(st.mtime > i.mtime + 1/100 ∨ st.size ≠ i.size) → ¬(i.tokens = 0 ∧ st.size > 100) →
      ∀ ex, scanFile (some i) st ex file_id category = ScanAction.skip) := by
  refine ⟨rfl, ?_, ?_, ?_⟩
  · intro h
    have hb : (decide (st.mtime > i.mtime + 1/100) || decide (st.size ≠ i.size)) = true := by
      rcases h with h | h
      · rw [decide_eq_true h, Bool.true_or]
      · rw [decide_eq_true h, Bool.or_true]
    simp only [scanFile, hb, Bool.true_or, if_true]
  · intro h ht hs
    push_neg at h
    have h1 : ¬(st.mtime > i.mtime + 1/100) := not_lt.mpr h.1
    have h2 : ¬(st.size ≠ i.size) := not_not_intro h.2
    have hb : (decide (st.mtime > i.mtime + 1/100) || decide (st.size ≠ i.size)) = false := by
      rw [decide_eq_false h1, decide_eq_false h2, Bool.or_self]
    have hbt : (decide (i.tokens = 0) && decide (st.size > 100)) = true := by
      rw [decide_eq_true ht, decide_eq_true hs, Bool.and_self]
    simp only [scanFile, hb, hbt, Bool.false_or, if_true, if_false, Bool.false_eq_true,
      reduceIte]
  · intro h hnt ex
    push_neg at h
    have h1 : ¬(st.mtime > i.mtime + 1/100) := not_lt.mpr h.1
    have h2 : ¬(st.size ≠ i.size) := not_not_intro h.2
    have hb : (decide (st.mtime > i.mtime + 1/100) || decide (st.size ≠ i.size)) = false := by
      rw [decide_eq_false h1, decide_eq_false h2, Bool.or_self]
    have hbt : (decide (i.tokens = 0) && decide (st.size > 100)) = false := by
      rcases Decidable.em (i.tokens = 0) with ht | ht
      · have hs : ¬(st.size > 100) := fun hs => hnt ⟨ht, hs⟩
        rw [decide_eq_false hs, Bool.and_false]
      · rw [decide_eq_false ht, Bool.false_and]
    simp only [scanFile, hb, hbt, Bool.false_or, Bool.false_eq_true, reduceIte]

/-! ### The `splitSlash`/`joinSlash` tool kit -/

theorem splitSlashAux_eq (l : List Char) (acc : List Char) :
    splitSlashAux l acc = (l.splitOnP (fun c => c == '/')).modifyHead (acc.reverse ++ ·) := by
  induction l generalizing acc with
  | nil => simp [splitSlashAux, List.splitOnP_nil]
  | cons c rest ih =>
    by_cases hc : c = '/'
    · subst hc
      rw [List.splitOnP_cons]
      simp only [beq_self_eq_true, if_pos]
      simp only [splitSlashAux, if_pos rfl]
      rw [ih]
      cases h : rest.splitOnP (fun c => c == '/') with
      | nil => exact absurd h (List.splitOnP_ne_nil _ _)
      | cons a t => simp [List.modifyHead]
    · rw [List.splitOnP_cons]
      simp only [beq_eq_false_iff_ne.mpr hc]
      simp only [splitSlashAux, if_neg hc]
      rw [ih]
      cases h : rest.splitOnP (fun c => c == '/') with
      | nil => exact absurd h (List.splitOnP_ne_nil _ _)
      | cons a t => simp [List.modifyHead]

theorem splitSlash_eq_map (s : String) :
    splitSlash s = ((s.data.splitOnP (fun c => c == '/')).map String.mk) := by
  unfold splitSlash
  rw [splitSlashAux_eq]
  cases h : s.data.splitOnP (fun c => c == '/') with
  | nil => exact absurd h (List.splitOnP_ne_nil _ _)
  | cons a t => simp [List.modifyHead]

theorem splitSlash_ne_nil (s : String) : splitSlash s ≠ [] := by
  rw [splitSlash_eq_map]
  simp [List.splitOnP_ne_nil]

theorem splitOnP_append_sep {α : Type} (p : α → Bool) (s : α) (hs : p s = true)
    (xs ys : List α) :
    (xs ++ s :: ys).splitOnP p = xs.splitOnP p ++ ys.splitOnP p := by
  induction xs with
  | nil =>
    simp [List.splitOnP_cons, hs, List.splitOnP_nil]
  | cons x xt ih =>
    by_cases hx : p x = true
    · simp [List.splitOnP_cons, hx, ih]
    · simp only [List.cons_append, List.splitOnP_cons, hx, Bool.false_eq_true, if_false, ih]
      cases h : xt.splitOnP p with
      | nil => exact absurd h (List.splitOnP_ne_nil _ _)
      | cons a t => simp [List.modifyHead]

theorem data_slash_append (s t : String) :
    (s ++ "/" ++ t).data = s.data ++ '/' :: t.data := by
  rw [String.data_append, String.data_append]
  simp [show ("/" : String).data = ['/'] from rfl]

theorem splitSlash_append_slash (s t : String) :
    splitSlash (s ++ "/" ++ t) = splitSlash s ++ splitSlash t := by
  rw [splitSlash_eq_map, splitSlash_eq_map, splitSlash_eq_map, data_slash_append]
  rw [splitOnP_append_sep _ '/' (by simp)]
  simp

theorem splitSlash_eq_single (s : String) (h : '/' ∉ s.data) : splitSlash s = [s] := by
  rw [splitSlash_eq_map]
  rw [List.splitOnP_eq_single]
  · simp
  · intro x hx hpx
    exact h (by simpa [show x = '/' from by simpa using hpx] using hx)

theorem data_joinSlash (L : List (List Char)) :
    (joinSlash (L.map String.mk)).data = [('/' : Char)].intercalate L := by
  induction L with
  | nil => simp [joinSlash, List.intercalate]
  | cons a t ih =>
    cases t with
    | nil => simp [joinSlash, List.intercalate]
    | cons b t' =>
      simp only [List.map_cons, joinSlash, String.data_append, ih]
      rw [show [('/' : Char)].intercalate (a :: b :: t') =
        a ++ '/' :: [('/' : Char)].intercalate (b :: t') from rfl]
      simp only [List.map_cons] at ih
      rw [ih]
      simp [show ("/" : String).data = ['/'] from rfl]

theorem joinSlash_splitSlash (s : String) : joinSlash (splitSlash s) = s := by
  have h := List.intercalate_splitOn s.data '/'
  apply String.ext
  rw [splitSlash_eq_map, data_joinSlash]
  simpa [List.splitOn] using h

theorem splitSlash_joinSlash (L : List String) (hne : L ≠ [])
    (h : ∀ p ∈ L, '/' ∉ p.data) : splitSlash (joinSlash L) = L := by
  have hL : L = (L.map String.data).map String.mk := by
    rw [List.map_map]; exact (List.map_id L).symm
  conv_lhs => rw [hL]
  rw [splitSlash_eq_map, data_joinSlash]
  have hx : ∀ l ∈ L.map String.data, '/' ∉ l := by
    intro l hl
    obtain ⟨p, hp, rfl⟩ := List.mem_map.mp hl
    exact h p hp
  have hls : L.map String.data ≠ [] := by
    intro hc; exact hne (by simpa using hc)
  have hsp := List.splitOn_intercalate (L.map String.data) '/' hx hls
  rw [show ([('/' : Char)].intercalate (L.map String.data)).splitOnP (fun c => c == '/') =
    ([('/' : Char)].intercalate (L.map String.data)).splitOn '/' from rfl]
  rw [hsp]
  exact hL.symm

theorem splitSlashAux_no_slash (l acc : List Char) (hacc : '/' ∉ acc) :
    ∀ q ∈ splitSlashAux l acc, '/' ∉ q := by
  induction l generalizing acc with
  | nil =>
    intro q hq
    simp only [splitSlashAux, List.mem_singleton] at hq
    subst hq
    simpa using hacc
  | cons c rest ih =>
    intro q hq
    by_cases hc : c = '/'
    · subst hc
      rw [show splitSlashAux ('/' :: rest) acc = acc.reverse :: splitSlashAux rest [] from by
        rw [splitSlashAux, if_pos rfl]] at hq
      rcases List.mem_cons.mp hq with hq1 | hq1
      · subst hq1; simpa using hacc
      · exact ih [] (by simp) q hq1
    · rw [show splitSlashAux (c :: rest) acc = splitSlashAux rest (c :: acc) from by
        rw [splitSlashAux, if_neg hc]] at hq
      refine ih (c :: acc) ?_ q hq
      intro hmem
      rcases List.mem_cons.mp hmem with h | h
      · exact hc h.symm
      · exact hacc h

theorem mem_splitSlash_no_slash (s p : String) (hp : p ∈ splitSlash s) :
    '/' ∉ p.data := by
  unfold splitSlash at hp
  obtain ⟨l, hl, rfl⟩ := List.mem_map.mp hp
  exact splitSlashAux_no_slash s.data [] (by simp) l hl

theorem containsSlash_iff (s : String) : containsSlash s = true ↔ '/' ∈ s.data := by
  unfold containsSlash
  exact List.elem_iff

theorem parentDir_concat (s t : String) (h : '/' ∉ t.data) :
    parentDir (s ++ "/" ++ t) = s := by
  unfold parentDir
  rw [if_pos ((containsSlash_iff _).mpr (by rw [data_slash_append]; simp))]
  rw [splitSlash_append_slash, splitSlash_eq_single t h, List.dropLast_concat]
  exact joinSlash_splitSlash s

theorem strStarts_iff (p s : String) : strStarts p s = true ↔ ∃ r, s = p ++ r := by
  unfold strStarts
  rw [decide_eq_true_eq]
  constructor
  · rintro ⟨t, ht⟩
    exact ⟨String.mk t, String.ext (by rw [String.data_append, ← ht])⟩
  · rintro ⟨r, rfl⟩
    exact ⟨r.data, (String.data_append p r).symm⟩

theorem strDrop_concat (p r : String) : strDrop (p ++ r) (strLen p) = r := by
  apply String.ext
  unfold strDrop strLen
  rw [String.data_append]
  exact List.drop_left p.data r.data

theorem wfPath_ne_empty (s : String) (h : WFPath s) : s ≠ "" := by
  intro hc
  subst hc
  exact h "" (by rw [show splitSlash "" = [""] from rfl]; simp) rfl

theorem wfPath_append_slash (a b : String) (ha : WFPath a) (hb : WFPath b) :
    WFPath (a ++ "/" ++ b) := by
  intro p hp
  rw [splitSlash_append_slash] at hp
  rcases List.mem_append.mp hp with h | h
  · exact ha p h
  · exact hb p h

theorem wfPath_of_append_slash (a b : String) (h : WFPath (a ++ "/" ++ b)) :
    WFPath a ∧ WFPath b := by
  constructor
  · intro p hp
    exact h p (by rw [splitSlash_append_slash]; exact List.mem_append.mpr (Or.inl hp))
  · intro p hp
    exact h p (by rw [splitSlash_append_slash]; exact List.mem_append.mpr (Or.inr hp))

theorem wfCat_parentDir (s : String) (h : WFPath s) : WFCat (parentDir s) := by
  unfold parentDir
  by_cases hc : containsSlash s = true
  · rw [if_pos hc]
    cases hd : (splitSlash s).dropLast with
    | nil => exact Or.inl rfl
    | cons a t =>
      right
      intro p hp
      rw [← hd] at hp
      rw [splitSlash_joinSlash ((splitSlash s).dropLast) (by rw [hd]; simp)
        (fun q hq => mem_splitSlash_no_slash s q (List.dropLast_subset _ hq))] at hp
      exact h p (List.dropLast_subset _ hp)
  · rw [if_neg hc]
    exact Or.inl rfl

theorem strAppend_assoc (a b c : String) : a ++ b ++ c = a ++ (b ++ c) := by
  apply String.ext
  simp [String.data_append, List.append_assoc]

theorem slash_append_ne_empty (a b : String) : a ++ "/" ++ b ≠ "" := by
  intro h
  have h2 := congrArg String.data h
  rw [data_slash_append] at h2
  simp at h2

theorem strAppend_left_cancel (a b c : String) (h : a ++ b = a ++ c) : b = c := by
  have h2 := congrArg String.data h
  rw [String.data_append, String.data_append] at h2
  exact String.ext (List.append_cancel_left h2)

theorem progressivePaths_shift (l : List String) (b : String) (hb : b ≠ "")
    (hl : ∀ p ∈ l, p ≠ "") :
    progressivePaths l b = (progressivePaths l "").map (fun q => b ++ "/" ++ q) := by
  induction l generalizing b with
  | nil => simp [progressivePaths]
  | cons p rest ih =>
    have hp : p ≠ "" := hl p (by simp)
    have hrest : ∀ q ∈ rest, q ≠ "" := fun q hq => hl q (by simp [hq])
    show (if b = "" then p else b ++ "/" ++ p) :: progressivePaths rest _ =
      ((if ("" : String) = "" then p else "" ++ "/" ++ p) :: progressivePaths rest _).map _
    rw [if_neg hb, if_pos rfl]
    simp only [List.map_cons]
    congr 1
    rw [ih (b ++ "/" ++ p) (slash_append_ne_empty _ _) hrest,
        ih p hp hrest, List.map_map]
    apply List.map_congr_left
    intro q hq
    apply String.ext
    simp [String.data_append, Function.comp, List.append_assoc]

theorem ancestorPaths_cons (p : String) (rest : List String) (hp : p ≠ "")
    (hrest : ∀ q ∈ rest, q ≠ "") :
    progressivePaths (p :: rest) "" =
      p :: (progressivePaths rest "").map (fun q => p ++ "/" ++ q) := by
  show (if ("" : String) = "" then p else "" ++ "/" ++ p) :: progressivePaths rest _ = _
  rw [if_pos rfl]
  congr 1
  exact progressivePaths_shift rest p hp hrest

theorem append_sep_cases (ps : List Char) (hps : '/' ∉ ps) :
    ∀ (xs qs ys : List Char), xs ++ '/' :: ys = ps ++ '/' :: qs →
    (xs = ps ∧ ys = qs) ∨ (∃ zs, xs = ps ++ '/' :: zs ∧ qs = zs ++ '/' :: ys) := by
  induction ps with
  | nil =>
    intro xs qs ys h
    cases xs with
    | nil =>
      simp only [List.nil_append] at h
      exact Or.inl ⟨rfl, by injection h⟩
    | cons x xt =>
      simp only [List.cons_append, List.nil_append] at h
      injection h with h1 h2
      exact Or.inr ⟨xt, by rw [h1]; rfl, h2.symm⟩
  | cons a ps' ih =>
    intro xs qs ys h
    have ha : a ≠ '/' := fun hc => hps (by rw [hc]; simp)
    have hps' : '/' ∉ ps' := fun hc => hps (by simp [hc])
    cases xs with
    | nil =>
      simp only [List.nil_append, List.cons_append] at h
      injection h with h1 h2
      exact absurd h1.symm ha
    | cons x xt =>
      simp only [List.cons_append] at h
      injection h with h1 h2
      subst h1
      rcases ih hps' xt qs ys h2 with ⟨hxe, hye⟩ | ⟨zs, hz1, hz2⟩
      · exact Or.inl ⟨by rw [hxe], hye⟩
      · exact Or.inr ⟨zs, by rw [hz1]; rfl, hz2⟩

theorem mem_progressive_iff (parts : List String) :
    parts ≠ [] → (∀ p ∈ parts, p ≠ "") → (∀ p ∈ parts, '/' ∉ p.data) →
    ∀ c : String, c ∈ progressivePaths parts "" ↔
      (c = joinSlash parts ∨ ∃ ρ, joinSlash parts = c ++ "/" ++ ρ) := by
  induction parts with
  | nil => intro h; exact absurd rfl h
  | cons p rest ih =>
    intro _ hwf hsl c
    have hp : p ≠ "" := hwf p (by simp)
    have hpsl : '/' ∉ p.data := hsl p (by simp)
    cases rest with
    | nil =>
      show c ∈ [if ("" : String) = "" then p else "" ++ "/" ++ p] ↔ _
      rw [if_pos rfl]
      simp only [List.mem_singleton, joinSlash]
      constructor
      · intro h; exact Or.inl h
      · rintro (h | ⟨ρ, hρ⟩)
        · exact h
        · exfalso
          apply hpsl
          rw [hρ, data_slash_append]
          simp
    | cons r2 rt =>
      have hwr : ∀ q ∈ r2 :: rt, q ≠ "" := fun q hq => hwf q (by simp [List.mem_cons.mp hq])
      have hsr : ∀ q ∈ r2 :: rt, '/' ∉ q.data := fun q hq => hsl q (by simp [List.mem_cons.mp hq])
      rw [ancestorPaths_cons p (r2 :: rt) hp hwr]
      have hJ : joinSlash (p :: r2 :: rt) = p ++ "/" ++ joinSlash (r2 :: rt) := rfl
      rw [hJ]
      have ihc := ih (by simp) hwr hsr
      constructor
      · intro hc
        rcases List.mem_cons.mp hc with rfl | hc
        · exact Or.inr ⟨joinSlash (r2 :: rt), rfl⟩
        · obtain ⟨q, hq, rfl⟩ := List.mem_map.mp hc
          rcases (ihc q).mp hq with rfl | ⟨ρ, hρ⟩
          · exact Or.inl rfl
          · refine Or.inr ⟨ρ, ?_⟩
            rw [hρ]
            apply String.ext
            simp [data_slash_append, String.data_append, List.append_assoc]
      · rintro (rfl | ⟨ρ, hρ⟩)
        · refine List.mem_cons.mpr (Or.inr ?_)
          exact List.mem_map.mpr ⟨joinSlash (r2 :: rt), (ihc _).mpr (Or.inl rfl), rfl⟩
        · have hd := congrArg String.data hρ
          rw [data_slash_append, data_slash_append] at hd
          rcases append_sep_cases p.data hpsl c.data (joinSlash (r2 :: rt)).data ρ.data
              hd.symm with ⟨h1, _⟩ | ⟨zs, h1, h2⟩
          · exact List.mem_cons.mpr (Or.inl (String.ext h1))
          · refine List.mem_cons.mpr (Or.inr ?_)
            have hc : c = p ++ "/" ++ String.mk zs := String.ext (by
              rw [h1, data_slash_append])
            refine List.mem_map.mpr ⟨String.mk zs, ?_, hc.symm⟩
            refine (ihc _).mpr (Or.inr ⟨ρ, ?_⟩)
            apply String.ext
            rw [data_slash_append]
            exact h2

theorem mem_ancestorPaths_iff (γ : String) (hγ : WFPath γ) (c : String) :
    c ∈ ancestorPaths γ ↔ (c = γ ∨ ∃ ρ, γ = c ++ "/" ++ ρ) := by
  unfold ancestorPaths
  have h := mem_progressive_iff (splitSlash γ) (splitSlash_ne_nil γ) hγ
    (fun p hp => mem_splitSlash_no_slash γ p hp) c
  rwa [joinSlash_splitSlash] at h

theorem underCat_iff_mem (γ c : String) (hγ : WFPath γ) :
    underCat c γ = true ↔ c ∈ ancestorPaths γ := by
  rw [mem_ancestorPaths_iff γ hγ c]
  unfold underCat
  rw [Bool.or_eq_true, decide_eq_true_eq, strStarts_iff]
  constructor
  · rintro (h | ⟨r, hr⟩)
    · exact Or.inl h.symm
    · exact Or.inr ⟨r, hr⟩
  · rintro (h | ⟨r, hr⟩)
    · exact Or.inl h.symm
    · exact Or.inr ⟨r, hr⟩

theorem underCat_empty (c : String) (hc : c ≠ "") : underCat c "" = false := by
  unfold underCat
  rw [Bool.or_eq_false_iff]
  constructor
  · exact decide_eq_false (fun h => hc h.symm)
  · rw [← Bool.not_eq_true, strStarts_iff]
    rintro ⟨r, hr⟩
    have := congrArg String.data hr
    rw [String.data_append, String.data_append] at this
    simp [show ("/" : String).data = ['/'] from rfl] at this

theorem ancestorPaths_nodup (γ : String) (hγ : WFPath γ) : (ancestorPaths γ).Nodup := by
  unfold ancestorPaths
  have hsl := fun p hp => mem_splitSlash_no_slash γ p hp
  have key : ∀ (parts : List String), (∀ p ∈ parts, p ≠ "") →
      (progressivePaths parts "").Nodup := by
    intro parts
    induction parts with
    | nil => intro _; simp [progressivePaths]
    | cons p rest ih =>
      intro hwf
      rw [ancestorPaths_cons p rest (hwf p (by simp))
        (fun q hq => hwf q (by simp [hq]))]
      rw [List.nodup_cons]
      constructor
      · intro hc
        obtain ⟨q, _, hq2⟩ := List.mem_map.mp hc
        have := congrArg strLen hq2
        unfold strLen at this
        rw [data_slash_append] at this
        simp at this
      · refine List.Nodup.map ?_ (ih (fun q hq => hwf q (by simp [hq])))
        intro q1 q2 he
        exact strAppend_left_cancel (p ++ "/") q1 q2 he
  exact key (splitSlash γ) hγ

theorem lookup_setCount (m : CountMap) (k k' : String) (v : Int) :
    List.lookup k' (setCount m k v) = if k' = k then some v else List.lookup k' m := by
  induction m with
  | nil =>
    by_cases h : k' = k
    · simp [setCount, List.lookup, h]
    · simp [setCount, List.lookup, h, beq_eq_false_iff_ne.mpr h]
  | cons p rest ih =>
    obtain ⟨a, w⟩ := p
    unfold setCount
    by_cases h1 : a = k
    · rw [if_pos h1]
      by_cases h2 : k' = k
      · simp [List.lookup, h2]
      · have : ¬(k' = a) := fun hc => h2 (hc.trans h1)
        simp [List.lookup, beq_eq_false_iff_ne.mpr h2, beq_eq_false_iff_ne.mpr this, h2]
    · rw [if_neg h1]
      by_cases h2 : k' = a
      · have hkk : ¬(k' = k) := fun hc => h1 (h2.symm.trans hc)
        simp [List.lookup, h2, hkk, if_neg h1]
      · simp [List.lookup, beq_eq_false_iff_ne.mpr h2, ih]

theorem getCount_setCount (m : CountMap) (k k' : String) (v : Int) :
    getCount (setCount m k v) k' = if k' = k then v else getCount m k' := by
  unfold getCount
  rw [lookup_setCount]
  by_cases h : k' = k <;> simp [h]

theorem getCount_bumpClamp (m : CountMap) (k k' : String) (δ : Int) :
    getCount (bumpClamp m k δ) k' =
      if k' = k then (if getCount m k + δ < 0 then 0 else getCount m k + δ)
      else getCount m k' := by
  unfold bumpClamp
  rw [getCount_setCount]

theorem getCount_foldl_bumpClamp (ks : List String) (hnd : ks.Nodup) (m : CountMap)
    (c : String) (δ : Int) :
    getCount (ks.foldl (fun acc p => bumpClamp acc p δ) m) c =
      if c ∈ ks then (if getCount m c + δ < 0 then 0 else getCount m c + δ)
      else getCount m c := by
  induction ks generalizing m with
  | nil => simp
  | cons k rest ih =>
    rw [List.nodup_cons] at hnd
    rw [List.foldl_cons, ih hnd.2]
    by_cases hck : c = k
    · subst hck
      rw [if_neg hnd.1, if_pos (by simp), getCount_bumpClamp, if_pos rfl]
    · rw [getCount_bumpClamp, if_neg hck]
      by_cases hcr : c ∈ rest
      · simp [hcr, hck]
      · simp [hcr, hck]

theorem getCount_updateCategoryCount (m : CountMap) (γ : String) (δ : Int) (c : String)
    (hγ : WFCat γ) (hc : c ≠ "") :
    getCount (updateCategoryCount m γ δ) c =
      if underCat c γ = true then
        (if getCount m c + δ < 0 then 0 else getCount m c + δ)
      else getCount m c := by
  unfold updateCategoryCount
  rcases hγ with rfl | hγ
  · rw [if_pos rfl, underCat_empty c hc]
    simp
  · rw [if_neg (wfPath_ne_empty γ hγ)]
    rw [getCount_foldl_bumpClamp _ (ancestorPaths_nodup γ hγ)]
    by_cases h : c ∈ ancestorPaths γ
    · rw [if_pos h, if_pos ((underCat_iff_mem γ c hγ).mpr h)]
    · rw [if_neg h, if_neg (fun hc2 => h ((underCat_iff_mem γ c hγ).mp hc2))]

theorem getCount_foldl_reloadBump (ks : List String) (hnd : ks.Nodup) (m : CountMap)
    (c : String) :
    getCount (ks.foldl reloadBump m) c =
      getCount m c + (if c ∈ ks then 1 else 0) := by
  induction ks generalizing m with
  | nil => simp
  | cons k rest ih =>
    rw [List.nodup_cons] at hnd
    rw [List.foldl_cons, ih hnd.2]
    unfold reloadBump
    rw [getCount_setCount]
    by_cases hck : c = k
    · subst hck
      rw [if_pos rfl, if_neg hnd.1, if_pos (by simp)]
      ring
    · rw [if_neg hck]
      by_cases hcr : c ∈ rest
      · simp [hcr, hck]
      · simp [hcr, hck]

theorem getCount_reloadCountCard (m : CountMap) (γ : String) (c : String)
    (hγ : WFCat γ) (hc : c ≠ "") :
    getCount (reloadCountCard m γ) c =
      getCount m c + (if underCat c γ = true then 1 else 0) := by
  unfold reloadCountCard
  rcases hγ with rfl | hγ
  · rw [if_pos rfl, underCat_empty c hc]
    unfold reloadBump
    rw [getCount_setCount, if_neg hc]
    simp
  · rw [if_neg (wfPath_ne_empty γ hγ)]
    rw [getCount_foldl_reloadBump _ ((ancestorPaths_nodup γ hγ).filter _)]
    unfold reloadBump
    rw [getCount_setCount]
    by_cases hcγ : c = γ
    · subst hcγ
      rw [if_pos rfl]
      have hnm : c ∉ (ancestorPaths c).filter (fun p => p ≠ c) := by
        intro hmem
        have := List.of_mem_filter hmem
        simp at this
      rw [if_neg hnm, if_pos ((underCat_iff_mem c c hγ).mpr
        ((mem_ancestorPaths_iff c hγ c).mpr (Or.inl rfl)))]
      ring
    · rw [if_neg hcγ]
      by_cases hmem : c ∈ ancestorPaths γ
      · rw [if_pos (List.mem_filter.mpr ⟨hmem, by simp [hcγ]⟩),
          if_pos ((underCat_iff_mem γ c hγ).mpr hmem)]
      · rw [if_neg (fun hmem2 => hmem (List.mem_filter.mp hmem2).1),
          if_neg (fun hc2 => hmem ((underCat_iff_mem γ c hγ).mp hc2))]
        try simp

theorem getCount_reloadCounts (cards : List Card) (c : String)
    (hwf : ∀ x ∈ cards, WFCat x.category) (hc : c ≠ "") :
    getCount (reloadCounts cards) c = (realCount cards c : Int) := by
  unfold reloadCounts realCount
  have key : ∀ (l : List Card) (m : CountMap), (∀ x ∈ l, WFCat x.category) →
      getCount (l.foldl (fun acc x => reloadCountCard acc x.category) m) c =
        getCount m c + (l.countP (fun x => underCat c x.category) : Int) := by
    intro l
    induction l with
    | nil => intro m _; simp
    | cons x rest ih =>
      intro m hl
      rw [List.foldl_cons, ih _ (fun y hy => hl y (by simp [hy]))]
      rw [getCount_reloadCountCard m x.category c (hl x (by simp)) hc]
      rw [List.countP_cons]
      by_cases hx : underCat c x.category = true
      · simp [hx]
        ring
      · simp [hx]
  rw [key cards [] hwf]
  simp [getCount, List.lookup]

theorem mem_dedupAcc (l : List String) : ∀ (seen : List String) (a : String),
    a ∈ dedupAcc seen l ↔ a ∈ l ∧ a ∉ seen := by
  induction l with
  | nil => intro seen a; simp [dedupAcc]
  | cons x rest ih =>
    intro seen a
    by_cases hx : seen.contains x
    · rw [show dedupAcc seen (x :: rest) = dedupAcc seen rest from by
        rw [dedupAcc, if_pos hx]]
      rw [ih]
      have hxs : x ∈ seen := by simpa [List.elem_iff] using hx
      constructor
      · rintro ⟨h1, h2⟩
        exact ⟨by simp [h1], h2⟩
      · rintro ⟨h1, h2⟩
        rcases List.mem_cons.mp h1 with rfl | h1
        · exact absurd hxs h2
        · exact ⟨h1, h2⟩
    · rw [show dedupAcc seen (x :: rest) = x :: dedupAcc (x :: seen) rest from by
        rw [dedupAcc, if_neg hx]]
      have hxs : x ∉ seen := by simpa [List.elem_iff] using hx
      constructor
      · intro h
        rcases List.mem_cons.mp h with rfl | h
        · exact ⟨by simp, hxs⟩
        · have := (ih (x :: seen) a).mp h
          exact ⟨by simp [this.1], fun hc => this.2 (by simp [hc])⟩
      · rintro ⟨h1, h2⟩
        rcases List.mem_cons.mp h1 with rfl | h1
        · exact List.mem_cons.mpr (Or.inl rfl)
        · by_cases hax : a = x
          · exact List.mem_cons.mpr (Or.inl hax)
          · exact List.mem_cons.mpr (Or.inr ((ih (x :: seen) a).mpr
              ⟨h1, fun hc => (List.mem_cons.mp hc).elim hax h2⟩))

theorem mem_dedupKeep (l : List String) (a : String) : a ∈ dedupKeep l ↔ a ∈ l := by
  unfold dedupKeep
  rw [mem_dedupAcc]
  simp

theorem dedupAcc_nodup (l : List String) : ∀ seen : List String, (dedupAcc seen l).Nodup := by
  induction l with
  | nil => intro seen; simp [dedupAcc]
  | cons x rest ih =>
    intro seen
    by_cases hx : seen.contains x
    · rw [show dedupAcc seen (x :: rest) = dedupAcc seen rest from by
        rw [dedupAcc, if_pos hx]]
      exact ih seen
    · rw [show dedupAcc seen (x :: rest) = x :: dedupAcc (x :: seen) rest from by
        rw [dedupAcc, if_neg hx]]
      rw [List.nodup_cons]
      refine ⟨?_, ih (x :: seen)⟩
      intro hc
      exact ((mem_dedupAcc rest (x :: seen) x).mp hc).2 (by simp)

theorem dedupKeep_nodup (l : List String) : (dedupKeep l).Nodup := dedupAcc_nodup l []

theorem sortByMtimeDesc_perm (l : List Card) : (sortByMtimeDesc l).Perm l :=
  List.perm_insertionSort _ l

theorem sortByMtimeDesc_sorted (l : List Card) :
    (sortByMtimeDesc l).Pairwise (fun a b => b.last_modified ≤ a.last_modified) := by
  haveI : IsTotal Card (fun a b => b.last_modified ≤ a.last_modified) :=
    ⟨fun a b => le_total b.last_modified a.last_modified⟩
  haveI : IsTrans Card (fun a b => b.last_modified ≤ a.last_modified) :=
    ⟨fun a b c h1 h2 => le_trans h2 h1⟩
  exact List.sorted_insertionSort _ l

theorem sortByMtimeDesc_ne_nil (l : List Card) (h : l ≠ []) : sortByMtimeDesc l ≠ [] := by
  intro hc
  have hl := (sortByMtimeDesc_perm l).length_eq
  rw [hc] at hl
  exact h (List.length_eq_zero.mp hl.symm)

theorem mkBundleCard_some (u : List (String × UiInfo)) (d : String) (g : List Card)
    (hg : g ≠ []) :
    ∃ lead rest, sortByMtimeDesc g = lead :: rest ∧
      mkBundleCard u d g = some (enrichCardUi u true
        { lead with
          is_bundle := true
          bundle_dir := d
          versions := (lead :: rest).map toStub
          category := parentDir d }) := by
  cases h : sortByMtimeDesc g with
  | nil => exact absurd h (sortByMtimeDesc_ne_nil g hg)
  | cons lead rest =>
    refine ⟨lead, rest, rfl, ?_⟩
    unfold mkBundleCard
    rw [h]


theorem mkBundleCard_dir (u : List (String × UiInfo)) (d : String) (g : List Card)
    (hall : ∀ x ∈ g, x.dir_path = d) (b : Card)
    (hb : mkBundleCard u d g = some b) : b.dir_path = d := by
  cases h : sortByMtimeDesc g with
  | nil => rw [mkBundleCard, h] at hb; exact absurd hb (by simp)
  | cons lead rest =>
    rw [mkBundleCard, h] at hb
    injection hb with hb
    have hlead : lead ∈ g := (sortByMtimeDesc_perm g).mem_iff.mp (by rw [h]; simp)
    rw [← hb]
    show lead.dir_path = d
    exact hall lead hlead

theorem filter_bundleCards (u : List (String × UiInfo)) (raw : List Card)
    (dirs : List String) (hnd : dirs.Nodup) (d : String) (hd : d ∈ dirs)
    (hgr : ∀ d' ∈ dirs, raw.filter (fun c => c.dir_path = d') ≠ []) :
    ∃ b, ((dirs.filterMap (fun d' =>
        (mkBundleCard u d' (raw.filter (fun c => c.dir_path = d'))).map
          (fun x => (d', x)))).map (fun p => p.2)).filter (fun c => c.dir_path = d) = [b] ∧
      mkBundleCard u d (raw.filter (fun c => c.dir_path = d)) = some b := by
  induction dirs with
  | nil => simp at hd
  | cons d0 dt ih =>
    rw [List.nodup_cons] at hnd
    obtain ⟨lead, rest, hs, hmk⟩ := mkBundleCard_some u d0
      (raw.filter (fun c => c.dir_path = d0)) (hgr d0 (by simp))
    have hld : lead.dir_path = d0 := by
      have hlead : lead ∈ raw.filter (fun c => c.dir_path = d0) :=
        (sortByMtimeDesc_perm _).mem_iff.mp (by rw [hs]; simp)
      simpa using (List.mem_filter.mp hlead).2
    have hdir0 : ∀ b0, mkBundleCard u d0 (raw.filter (fun c => c.dir_path = d0)) = some b0 →
        b0.dir_path = d0 :=
      fun b0 hb0 => mkBundleCard_dir u d0 _ (fun x hx => by
        simpa using (List.mem_filter.mp hx).2) b0 hb0
    have htail_ne : ∀ b1 ∈ (dt.filterMap (fun d' =>
        (mkBundleCard u d' (raw.filter (fun c => c.dir_path = d'))).map
          (fun x => (d', x)))).map (fun p => p.2), b1.dir_path ≠ d0 := by
      intro b1 hb1
      obtain ⟨p, hp, rfl⟩ := List.mem_map.mp hb1
      obtain ⟨d', hd'2, hp2⟩ := List.mem_filterMap.mp hp
      cases hmk2 : mkBundleCard u d' (raw.filter (fun c => c.dir_path = d')) with
      | none => rw [hmk2] at hp2; exact absurd hp2 (by simp)
      | some b2 =>
        rw [hmk2] at hp2
        simp only [Option.map_some', Option.some.injEq] at hp2
        have hpd : p.2.dir_path = d' := by
          rw [← hp2]
          exact mkBundleCard_dir u d' _ (fun x hx => by
            simpa using (List.mem_filter.mp hx).2) b2 hmk2
        rw [hpd]
        intro hc
        subst hc
        exact hnd.1 hd'2
    rcases List.mem_cons.mp hd with rfl | hd'
    · refine ⟨_, ?_, hmk⟩
      rw [List.filterMap_cons, hmk]
      simp only [Option.map_some', List.map_cons]
      rw [List.filter_cons]
      rw [if_pos (by exact decide_eq_true (hdir0 _ hmk))]
      rw [List.filter_eq_nil_iff.mpr (fun b1 hb1 => by
        simpa using htail_ne b1 hb1)]
    · obtain ⟨b, hb1, hb2⟩ := ih hnd.2 hd' (fun d' hdm => hgr d' (by simp [hdm]))
      refine ⟨b, ?_, hb2⟩
      rw [List.filterMap_cons, hmk]
      simp only [Option.map_some', List.map_cons]
      rw [List.filter_cons_of_neg, hb1]
      simp only [decide_eq_true_eq]
      show ¬(lead.dir_path = d)
      rw [hld]
      intro hc
      subst hc
      exact hnd.1 hd'

theorem charListLe_total (a b : List Char) :
    charListLe a b = true ∨ charListLe b a = true := by
  induction a generalizing b with
  | nil => exact Or.inl rfl
  | cons x xs ih =>
    cases b with
    | nil => exact Or.inr rfl
    | cons y ys =>
      rw [charListLe, charListLe]
      by_cases hxy : x.toNat < y.toNat
      · left
        rw [if_pos hxy]
      · by_cases hyx : y.toNat < x.toNat
        · right
          rw [if_pos hyx]
        · rw [if_neg hxy, if_neg hyx, if_neg hyx, if_neg hxy]
          exact ih ys

theorem charListLe_trans (a b c : List Char) (h1 : charListLe a b = true)
    (h2 : charListLe b c = true) : charListLe a c = true := by
  induction a generalizing b c with
  | nil => rfl
  | cons x xs ih =>
    cases b with
    | nil => simp [charListLe] at h1
    | cons y ys =>
      cases c with
      | nil => simp [charListLe] at h2
      | cons z zs =>
        rw [charListLe] at h1 h2 ⊢
        split at h1
        case isTrue hxy =>
          split at h2
          case isTrue hyz => rw [if_pos (by omega)]
          case isFalse hyz =>
            split at h2
            case isTrue hzy => simp at h2
            case isFalse hzy => rw [if_pos (by omega)]
        case isFalse hxy =>
          split at h1
          case isTrue hyx => simp at h1
          case isFalse hyx =>
            split at h2
            case isTrue hyz => rw [if_pos (by omega)]
            case isFalse hyz =>
              split at h2
              case isTrue hzy => simp at h2
              case isFalse hzy =>
                rw [if_neg (by omega), if_neg (by omega)]
                exact ih ys zs h1 h2

theorem mem_sortStr (l : List String) (a : String) : a ∈ sortStr l ↔ a ∈ l :=
  (List.perm_insertionSort _ l).mem_iff

theorem sortStr_sorted (l : List String) :
    (sortStr l).Pairwise (fun a b => strLe a b = true) := by
  haveI : IsTotal String (fun a b => strLe a b = true) :=
    ⟨fun a b => charListLe_total a.data b.data⟩
  haveI : IsTrans String (fun a b => strLe a b = true) :=
    ⟨fun a b c => charListLe_trans a.data b.data c.data⟩
  exact List.sorted_insertionSort _ l

theorem mem_sortedUnion (a b : List String) (t : String) :
    t ∈ sortedUnion a b ↔ t ∈ a ∨ t ∈ b := by
  unfold sortedUnion
  rw [mem_sortStr, mem_dedupKeep, List.mem_append]

theorem sortedUnion_sorted (a b : List String) :
    (sortedUnion a b).Pairwise (fun x y => strLe x y = true) := sortStr_sorted _

/-! ### Association-list helpers for the scan cycle -/

theorem lookup_map_snd {α β γ : Type} [BEq α] (f : β → γ) (k : α) (l : List (α × β)) :
    List.lookup k (l.map (fun p => (p.1, f p.2))) = (List.lookup k l).map f := by
  induction l with
  | nil => rfl
  | cons p rest ih =>
    by_cases h : k == p.1
    · simp [List.lookup, h]
    · simp [List.lookup, h, ih]

theorem lookup_some_mem_keys {β : Type} (l : List (String × β)) (k : String) (v : β)
    (h : List.lookup k l = some v) : k ∈ l.map Prod.fst := by
  induction l with
  | nil => simp [List.lookup] at h
  | cons q rest ih =>
    by_cases ha : k == q.1
    · simp [List.lookup, ha] at h
      simp [show k = q.1 from by simpa using ha]
    · simp only [List.lookup, ha] at h
      simp [ih h]

theorem lookup_storePut (l : List (String × ScanRecord)) (k k' : String) (r : ScanRecord) :
    List.lookup k' (storePut l k r) = if k = k' then some r else List.lookup k' l := by
  induction l with
  | nil =>
    by_cases h : k = k'
    · simp [storePut, List.lookup, h]
    · simp [storePut, List.lookup, h, beq_eq_false_iff_ne.mpr (Ne.symm h)]
  | cons p rest ih =>
    obtain ⟨a, v⟩ := p
    by_cases h : a = k
    · subst h
      by_cases h2 : a = k'
      · subst h2
        simp [storePut, List.lookup]
      · simp [storePut, List.lookup, beq_eq_false_iff_ne.mpr (Ne.symm h2),
          if_neg (fun hc : a = k' => h2 hc)]
    · by_cases h2 : a = k'
      · subst h2
        have hk : ¬(k = a) := fun hc => h hc.symm
        simp [storePut, List.lookup, if_neg h, if_neg hk]
      · simp [storePut, List.lookup, if_neg h, beq_eq_false_iff_ne.mpr (Ne.symm h2), ih]

theorem mem_keys_storePut (l : List (String × ScanRecord)) (k b : String) (r : ScanRecord) :
    b ∈ (storePut l k r).map Prod.fst ↔ b = k ∨ b ∈ l.map Prod.fst := by
  induction l with
  | nil => simp [storePut]
  | cons p rest ih =>
    obtain ⟨a, v⟩ := p
    by_cases hk : a = k
    · subst hk
      simp [storePut]
    · simp [storePut, if_neg hk, ih]
      tauto

theorem keys_storePut_nodup (l : List (String × ScanRecord)) (k : String) (r : ScanRecord)
    (h : (l.map Prod.fst).Nodup) : ((storePut l k r).map Prod.fst).Nodup := by
  induction l with
  | nil => simp [storePut]
  | cons p rest ih =>
    obtain ⟨a, v⟩ := p
    simp only [List.map_cons, List.nodup_cons] at h
    by_cases hk : a = k
    · subst hk
      simpa [storePut] using h
    · simp only [storePut, if_neg hk, List.map_cons, List.nodup_cons]
      refine ⟨?_, ih h.2⟩
      intro hmem
      rcases (mem_keys_storePut rest k a r).mp hmem with h' | h'
      · exact hk h'
      · exact h.1 h'

theorem lookup_filter_of_nodup (l : List (String × ScanRecord))
    (p : String × ScanRecord → Bool) (k : String) (v : ScanRecord)
    (hnd : (l.map Prod.fst).Nodup)
    (h : List.lookup k (l.filter p) = some v) : List.lookup k l = some v := by
  induction l with
  | nil => simp [List.lookup] at h
  | cons q rest ih =>
    obtain ⟨a, w⟩ := q
    simp only [List.map_cons, List.nodup_cons] at hnd
    by_cases ha : a = k
    · subst ha
      by_cases hp : p (a, w)
      · simp only [List.filter_cons, hp] at h
        simp only [List.lookup, beq_self_eq_true] at h ⊢
        exact h
      · exfalso
        simp only [List.filter_cons, hp] at h
        simp at hp
        have hl : List.lookup a (rest.filter p) = some v := by simpa [hp] using h
        have hmem := lookup_some_mem_keys _ _ _ hl
        obtain ⟨q, hq, hq2⟩ := List.mem_map.mp hmem
        exact hnd.1 (List.mem_map.mpr ⟨q, List.mem_of_mem_filter hq, hq2⟩)
    · by_cases hp : p (a, w)
      · simp only [List.filter_cons, hp] at h
        simp only [List.lookup, beq_eq_false_iff_ne.mpr (Ne.symm ha)] at h ⊢
        exact ih hnd.2 h
      · simp only [List.filter_cons, hp] at h
        simp only [List.lookup, beq_eq_false_iff_ne.mpr (Ne.symm ha)]
        simp at hp
        exact ih hnd.2 (by simpa [hp] using h)

theorem scanFile_upsert_fav (i : DbInfo) (st : FileStat) (ex : Option ScanExtract)
    (fid cat : String) (r : ScanRecord)
    (h : scanFile (some i) st ex fid cat = ScanAction.upsert r) :
    r.is_favorite = i.fav := by
  simp only [scanFile] at h
  split at h
  · cases ex with
    | none => exact absurd h (by simp)
    | some info =>
        simp only [ScanAction.upsert.injEq] at h
        rw [← h]
  · exact absurd h (by simp)

theorem scanStep_inv (snap : List (String × DbInfo)) (id : String) (i0 : DbInfo)
    (hsnap : List.lookup id snap = some i0) (st : List (String × ScanRecord)) (f : FsFile)
    (hnd : (st.map Prod.fst).Nodup)
    (hfav : ∀ r, List.lookup id st = some r → r.is_favorite = i0.fav) :
    ((scanStep snap st f).map Prod.fst).Nodup ∧
      (∀ r, List.lookup id (scanStep snap st f) = some r → r.is_favorite = i0.fav) := by
  unfold scanStep
  split
  · split
    · exact ⟨hnd, hfav⟩
    · split
      · exact ⟨hnd, hfav⟩
      · rename_i r heq
        refine ⟨keys_storePut_nodup _ _ _ hnd, ?_⟩
        intro r' hr'
        rw [lookup_storePut] at hr'
        by_cases hid : fsFileId f = id
        · rw [if_pos hid] at hr'
          obtain rfl : r = r' := by injection hr'
          subst hid
          rw [hsnap] at heq
          exact scanFile_upsert_fav _ _ _ _ _ _ heq
        · rw [if_neg hid] at hr'
          exact hfav r' hr'
  · exact ⟨hnd, hfav⟩

/-- C10: a scan cycle writes the favorite flag of every upserted existing
record back from the pre-scan snapshot: whatever the cycle does, an id that
survives it keeps the `is_favorite` value it had before. -/
theorem c10_scan_never_changes_favorite (store : List (String × ScanRecord))
    (files : List FsFile) (hnd : (store.map Prod.fst).Nodup) (id : String)
    (r0 r1 : ScanRecord) (h0 : List.lookup id store = some r0)
    (h1 : List.lookup id (scanCycle store files) = some r1) :
    r1.is_favorite = r0.is_favorite := by
  unfold scanCycle at h1
  simp only at h1
  have hsnap : List.lookup id (store.map (fun p => (p.1, snapshotOf p.2))) =
      some (snapshotOf r0) := by
    rw [lookup_map_snd, h0]; rfl
  have hfold : ∀ (fs : List FsFile) (st : List (String × ScanRecord)),
      (st.map Prod.fst).Nodup →
      (∀ r, List.lookup id st = some r → r.is_favorite = (snapshotOf r0).fav) →
      ((fs.foldl (scanStep (store.map (fun p => (p.1, snapshotOf p.2)))) st).map
          Prod.fst).Nodup ∧
        (∀ r, List.lookup id
            (fs.foldl (scanStep (store.map (fun p => (p.1, snapshotOf p.2)))) st) = some r →
          r.is_favorite = (snapshotOf r0).fav) := by
    intro fs
    induction fs with
    | nil => intro st ha hb; exact ⟨ha, hb⟩
    | cons f rest ih =>
      intro st hstnd hstfav
      have hstep := scanStep_inv _ id (snapshotOf r0) hsnap st f hstnd hstfav
      exact ih _ hstep.1 hstep.2
  have hbase : ∀ r, List.lookup id store = some r → r.is_favorite = (snapshotOf r0).fav := by
    intro r hr
    rw [h0] at hr
    injection hr with hr
    rw [← hr]; rfl
  obtain ⟨hndA, hfavA⟩ := hfold files store hnd hbase
  have := lookup_filter_of_nodup _ _ _ _ hndA h1
  exact hfavA r1 this

theorem c10_witness :
    (([("a.png", rec0)].map (Prod.fst : String × ScanRecord → String)).Nodup) ∧
    List.lookup "a.png" [("a.png", rec0)] = some rec0 ∧
    List.lookup "a.png" (scanCycle [("a.png", rec0)] [⟨"", "a.png", none, none⟩]) = some rec0 ∧
    rec0.is_favorite = 1 := by
  refine ⟨by decide, rfl, by decide, ?_⟩
  have h := c10_scan_never_changes_favorite [("a.png", rec0)] [⟨"", "a.png", none, none⟩]
    (by decide) "a.png" rec0 rec0 rfl (by decide)
  exact h.symm.trans (by decide)

/-- C1: after a full rebuild, a sentinel-marked directory whose member files
have pairwise-distinct modification times is represented by exactly one
entry in `cards`; that entry is a bundle whose borrowed attributes equal the
most recently modified member's, whose `id` is that leading member's path,
whose `category` is the directory's parent, and whose `versions` list is all
the members sorted by modification time descending. -/
theorem c1_bundle_rebuild (inp : ReloadData) (d : String)
    (hd : isBundleDir inp d = true)
    (hne : bundleMembers inp d ≠ [])
    (hdist : (bundleMembers inp d).Pairwise
      (fun a b => a.last_modified ≠ b.last_modified)) :
    ∃ b lead,
      ((applyReload inp).cards.filter (fun c => c.dir_path = d)) = [b] ∧
      lead ∈ bundleMembers inp d ∧
      (∀ v ∈ bundleMembers inp d, v ≠ lead → v.last_modified < lead.last_modified) ∧
      b.is_bundle = true ∧ b.bundle_dir = d ∧
      b.id = lead.id ∧ b.filename = lead.filename ∧ b.char_name = lead.char_name ∧
      b.tags = lead.tags ∧ b.creator = lead.creator ∧
      b.char_version = lead.char_version ∧ b.last_modified = lead.last_modified ∧
      b.file_hash = lead.file_hash ∧ b.token_count = lead.token_count ∧
      b.is_favorite = lead.is_favorite ∧
      b.category = parentDir d ∧
      b.versions.Perm ((bundleMembers inp d).map toStub) ∧
      b.versions.Pairwise (fun u v => v.last_modified < u.last_modified) := by
  classical
  set raw := inp.rows.map mkRawCard with hraw
  have hmembers : bundleMembers inp d = raw.filter (fun c => c.dir_path = d) := rfl
  -- d is one of the grouped bundle directories
  obtain ⟨c0, hc0⟩ := List.exists_mem_of_ne_nil _ hne
  have hc0' := List.mem_filter.mp (hmembers ▸ hc0)
  set dirs := dedupKeep ((raw.map (fun c => c.dir_path)).filter (isBundleDir inp)) with hdirs
  have hddirs : d ∈ dirs := by
    rw [hdirs, mem_dedupKeep]
    refine List.mem_filter.mpr ⟨?_, ?_⟩
    · exact List.mem_map.mpr ⟨c0, hc0'.1, by simpa using hc0'.2⟩
    · simpa using hd
  have hgr : ∀ d' ∈ dirs, raw.filter (fun c => c.dir_path = d') ≠ [] := by
    intro d' hd'
    rw [hdirs, mem_dedupKeep] at hd'
    obtain ⟨hmem, _⟩ := List.mem_filter.mp hd'
    obtain ⟨c1, hc1, hc1d⟩ := List.mem_map.mp hmem
    intro hnil
    have : c1 ∈ raw.filter (fun c => c.dir_path = d') :=
      List.mem_filter.mpr ⟨hc1, by simpa using hc1d⟩
    rw [hnil] at this
    simp at this
  obtain ⟨b, hfb, hmkb⟩ := filter_bundleCards inp.ui_data raw dirs
    (dedupKeep_nodup _) d hddirs hgr
  obtain ⟨lead, rest, hs, hmk⟩ := mkBundleCard_some inp.ui_data d
    (raw.filter (fun c => c.dir_path = d)) (hmembers ▸ hne)
  have hbeq : b = enrichCardUi inp.ui_data true
      { lead with
        is_bundle := true
        bundle_dir := d
        versions := (lead :: rest).map toStub
        category := parentDir d } := by
    have := hmkb.symm.trans hmk
    injection this
  -- the cards list splits into plain cards and bundle cards
  have hcards : (applyReload inp).cards =
      ((raw.filter (fun c => !(isBundleDir inp c.dir_path))).map
        (enrichCardUi inp.ui_data false)) ++
      ((dirs.filterMap (fun d' =>
        (mkBundleCard inp.ui_data d' (raw.filter (fun c => c.dir_path = d'))).map
          (fun x => (d', x)))).map (fun p => p.2)) := rfl
  have hplains : ((raw.filter (fun c => !(isBundleDir inp c.dir_path))).map
      (enrichCardUi inp.ui_data false)).filter (fun c => c.dir_path = d) = [] := by
    rw [List.filter_eq_nil_iff]
    intro p hp
    obtain ⟨c1, hc1, rfl⟩ := List.mem_map.mp hp
    have hc1' := List.mem_filter.mp hc1
    simp only [decide_eq_true_eq]
    show ¬(c1.dir_path = d)
    intro hc
    rw [hc] at hc1'
    have := hc1'.2
    rw [hd] at this
    simp at this
  have hfilter : ((applyReload inp).cards.filter (fun c => c.dir_path = d)) = [b] := by
    rw [hcards, List.filter_append, hplains, List.nil_append, hfb]
  -- leader facts
  have hperm : (lead :: rest).Perm (bundleMembers inp d) := by
    rw [hmembers, ← hs]
    exact sortByMtimeDesc_perm _
  have hlead_mem : lead ∈ bundleMembers inp d := hperm.mem_iff.mp (by simp)
  have hsorted : (lead :: rest).Pairwise (fun a b => b.last_modified ≤ a.last_modified) := by
    rw [← hs]
    exact sortByMtimeDesc_sorted _
  have hdist2 : (lead :: rest).Pairwise (fun a b => a.last_modified ≠ b.last_modified) := by
    refine (List.Perm.pairwise_iff ?_ hperm).mpr hdist
    intro a b h
    exact h.symm
  have hstrict : (lead :: rest).Pairwise (fun a b => b.last_modified < a.last_modified) := by
    have hand := hsorted.and hdist2
    refine hand.imp ?_
    rintro a b ⟨h1, h2⟩
    exact lt_of_le_of_ne h1 (fun hc => h2 hc.symm)
  have hmax : ∀ v ∈ bundleMembers inp d, v ≠ lead → v.last_modified < lead.last_modified := by
    intro v hv hvne
    have hv2 : v ∈ lead :: rest := hperm.mem_iff.mpr hv
    rcases List.mem_cons.mp hv2 with rfl | hv3
    · exact absurd rfl hvne
    · exact (List.pairwise_cons.mp hstrict).1 v hv3
  subst hbeq
  refine ⟨_, lead, hfilter, hlead_mem, hmax, rfl, rfl, rfl, rfl, rfl, rfl, rfl, rfl, rfl,
    rfl, rfl, rfl, rfl, ?_, ?_⟩
  · show ((lead :: rest).map toStub).Perm ((bundleMembers inp d).map toStub)
    exact hperm.map toStub
  · show ((lead :: rest).map toStub).Pairwise (fun u v => v.last_modified < u.last_modified)
    rw [List.pairwise_map]
    exact hstrict

theorem c1_witness :
    isBundleDir inpA "D" = true ∧ bundleMembers inpA "D" ≠ [] ∧
    (bundleMembers inpA "D").Pairwise (fun a b => a.last_modified ≠ b.last_modified) ∧
    (∃ b lead,
      ((applyReload inpA).cards.filter (fun c => c.dir_path = "D")) = [b] ∧
      lead ∈ bundleMembers inpA "D" ∧
      (∀ v ∈ bundleMembers inpA "D", v ≠ lead → v.last_modified < lead.last_modified) ∧
      b.is_bundle = true ∧ b.bundle_dir = "D" ∧
      b.id = lead.id ∧ b.filename = lead.filename ∧ b.char_name = lead.char_name ∧
      b.tags = lead.tags ∧ b.creator = lead.creator ∧
      b.char_version = lead.char_version ∧ b.last_modified = lead.last_modified ∧
      b.file_hash = lead.file_hash ∧ b.token_count = lead.token_count ∧
      b.is_favorite = lead.is_favorite ∧
      b.category = parentDir "D" ∧
      b.versions.Perm ((bundleMembers inpA "D").map toStub) ∧
      b.versions.Pairwise (fun u v => v.last_modified < u.last_modified)) :=
  ⟨by decide, by decide, by decide,
   c1_bundle_rebuild inpA "D" (by decide) (by decide) (by decide)⟩

/-- C3 fails on the code: the rebuild builds `id_map` from `final_cards`
only, so a non-leading version id inside a bundle directory is absent. -/
theorem c3_counterexample :
    (∃ b ∈ (applyReload inpA).cards, b.is_bundle = true ∧ b.bundle_dir = "D" ∧
      (b.versions.map (fun v => v.id)) = ["D/b.png", "D/a.png"]) ∧
    "D/a.png" ∉ idKeys (applyReload inpA) := by decide

theorem mem_bundleCards_src (u : List (String × UiInfo)) (raw : List Card)
    (dirs : List String) (b1 : Card)
    (hb1 : b1 ∈ (dirs.filterMap (fun d' =>
        (mkBundleCard u d' (raw.filter (fun c => c.dir_path = d'))).map
          (fun x => (d', x)))).map (fun p => p.2)) :
    ∃ d' ∈ dirs, mkBundleCard u d' (raw.filter (fun c => c.dir_path = d')) = some b1 := by
  obtain ⟨p, hp, rfl⟩ := List.mem_map.mp hb1
  obtain ⟨d', hd', hp2⟩ := List.mem_filterMap.mp hp
  cases hmk : mkBundleCard u d' (raw.filter (fun c => c.dir_path = d')) with
  | none => rw [hmk] at hp2; exact absurd hp2 (by simp)
  | some b2 =>
    rw [hmk] at hp2
    simp only [Option.map_some', Option.some.injEq] at hp2
    refine ⟨d', hd', ?_⟩
    rw [hmk, ← hp2]

theorem mkBundleCard_id (u : List (String × UiInfo)) (d : String) (g : List Card)
    (b : Card) (hb : mkBundleCard u d g = some b) :
    ∃ lead rest, sortByMtimeDesc g = lead :: rest ∧ lead ∈ g ∧ b.id = lead.id := by
  cases h : sortByMtimeDesc g with
  | nil => rw [mkBundleCard, h] at hb; exact absurd hb (by simp)
  | cons lead rest =>
    rw [mkBundleCard, h] at hb
    injection hb with hb
    refine ⟨lead, rest, rfl, (sortByMtimeDesc_perm g).mem_iff.mp (by rw [h]; simp), ?_⟩
    rw [← hb]
    rfl


/-- C3 as amended: after a full rebuild, `id_map` holds exactly the display
entries' ids (each plain card's id and each bundle's leading version id,
owned by the bundle object); the ids of non-leading versions are not keys
of `id_map` — they are reachable only through the bundle's `versions`. -/
theorem c3_id_map_after_rebuild (inp : ReloadData) (d : String) (h : WFReload inp)
    (hd : isBundleDir inp d = true)
    (hne : bundleMembers inp d ≠ [])
    (hdist : (bundleMembers inp d).Pairwise
      (fun a b => a.last_modified ≠ b.last_modified)) :
    idKeys (applyReload inp) = (applyReload inp).cards.map (fun c => c.id) ∧
    ∃ lead ∈ bundleMembers inp d,
      (∀ v ∈ bundleMembers inp d, v ≠ lead → v.last_modified < lead.last_modified) ∧
      (∃ b ∈ (applyReload inp).cards, b.id = lead.id ∧ b.is_bundle = true ∧
        b.bundle_dir = d) ∧
      (∀ v ∈ bundleMembers inp d, v ≠ lead → v.id ∉ idKeys (applyReload inp)) := by
  classical
  set raw := inp.rows.map mkRawCard with hraw
  have hmembers : bundleMembers inp d = raw.filter (fun c => c.dir_path = d) := rfl
  have hrawid : (raw.map (fun c => c.id)).Nodup := by
    have he : raw.map (fun c => c.id) = inp.rows.map (fun r => normSlashes r.id) := by
      rw [hraw, List.map_map]
      rfl
    rw [he]
    exact h.nodup
  have inj := List.inj_on_of_nodup_map hrawid
  obtain ⟨c0, hc0⟩ := List.exists_mem_of_ne_nil _ hne
  have hc0' := List.mem_filter.mp (hmembers ▸ hc0)
  set dirs := dedupKeep ((raw.map (fun c => c.dir_path)).filter (isBundleDir inp)) with hdirs
  have hddirs : d ∈ dirs := by
    rw [hdirs, mem_dedupKeep]
    refine List.mem_filter.mpr ⟨?_, ?_⟩
    · exact List.mem_map.mpr ⟨c0, hc0'.1, by simpa using hc0'.2⟩
    · simpa using hd
  have hgr : ∀ d' ∈ dirs, raw.filter (fun c => c.dir_path = d') ≠ [] := by
    intro d' hd'
    rw [hdirs, mem_dedupKeep] at hd'
    obtain ⟨hmem, _⟩ := List.mem_filter.mp hd'
    obtain ⟨c1, hc1, hc1d⟩ := List.mem_map.mp hmem
    intro hnil
    have hin : c1 ∈ raw.filter (fun c => c.dir_path = d') :=
      List.mem_filter.mpr ⟨hc1, by simpa using hc1d⟩
    rw [hnil] at hin
    simp at hin
  obtain ⟨b, hfb, hmkb⟩ := filter_bundleCards inp.ui_data raw dirs
    (dedupKeep_nodup _) d hddirs hgr
  obtain ⟨lead, rest, hs, hlead_g, hbid⟩ := mkBundleCard_id inp.ui_data d _ b hmkb
  have hcards : (applyReload inp).cards =
      ((raw.filter (fun c => !(isBundleDir inp c.dir_path))).map
        (enrichCardUi inp.ui_data false)) ++
      ((dirs.filterMap (fun d' =>
        (mkBundleCard inp.ui_data d' (raw.filter (fun c => c.dir_path = d'))).map
          (fun x => (d', x)))).map (fun p => p.2)) := rfl
  -- leader is the strict maximum
  have hperm : (lead :: rest).Perm (bundleMembers inp d) := by
    rw [hmembers, ← hs]
    exact sortByMtimeDesc_perm _
  have hlead_mem : lead ∈ bundleMembers inp d := hperm.mem_iff.mp (by simp)
  have hsorted : (lead :: rest).Pairwise (fun a b => b.last_modified ≤ a.last_modified) := by
    rw [← hs]
    exact sortByMtimeDesc_sorted _
  have hdist2 : (lead :: rest).Pairwise (fun a b => a.last_modified ≠ b.last_modified) := by
    refine (List.Perm.pairwise_iff ?_ hperm).mpr hdist
    intro a b hab
    exact hab.symm
  have hstrict : (lead :: rest).Pairwise (fun a b => b.last_modified < a.last_modified) := by
    refine (hsorted.and hdist2).imp ?_
    rintro a b ⟨h1, h2⟩
    exact lt_of_le_of_ne h1 (fun hc => h2 hc.symm)
  have hmax : ∀ v ∈ bundleMembers inp d, v ≠ lead →
      v.last_modified < lead.last_modified := by
    intro v hv hvne
    have hv2 : v ∈ lead :: rest := hperm.mem_iff.mpr hv
    rcases List.mem_cons.mp hv2 with rfl | hv3
    · exact absurd rfl hvne
    · exact (List.pairwise_cons.mp hstrict).1 v hv3
  -- b is a bundle display entry
  have hbcard : b ∈ (applyReload inp).cards := by
    have hb1 : b ∈ [b] := by simp
    rw [← hfb] at hb1
    rw [hcards]
    exact List.mem_append.mpr (Or.inr (List.mem_of_mem_filter hb1))
  have hbfields : b.is_bundle = true ∧ b.bundle_dir = d := by
    obtain ⟨lead2, rest2, hs2, hmk2⟩ := mkBundleCard_some inp.ui_data d
      (raw.filter (fun c => c.dir_path = d)) (hmembers ▸ hne)
    have hbe := hmkb.symm.trans hmk2
    injection hbe with hbe
    rw [hbe]
    exact ⟨rfl, rfl⟩
  refine ⟨rfl, lead, hlead_mem, hmax, ⟨b, hbcard, hbid.symm ▸ rfl, hbfields.1, hbfields.2⟩, ?_⟩
  intro v hv hvne hvin
  have hvraw : v ∈ raw ∧ v.dir_path = d := by
    have hm := List.mem_filter.mp (hmembers ▸ hv)
    exact ⟨hm.1, by simpa using hm.2⟩
  unfold idKeys at hvin
  rw [hcards, List.map_append] at hvin
  rcases List.mem_append.mp hvin with hvp | hvb
  · obtain ⟨p1, hp1, hpid⟩ := List.mem_map.mp hvp
    obtain ⟨c1, hc1, rfl⟩ := List.mem_map.mp hp1
    have hc1' := List.mem_filter.mp hc1
    have hceq : c1 = v := inj hc1'.1 hvraw.1 hpid
    rw [hceq] at hc1'
    have hbad := hc1'.2
    rw [hvraw.2, hd] at hbad
    simp at hbad
  · obtain ⟨b1, hb1, hb1id⟩ := List.mem_map.mp hvb
    obtain ⟨b2, hb2, rfl⟩ := List.mem_map.mp hb1
    obtain ⟨d', hd', hmk2⟩ := mem_bundleCards_src inp.ui_data raw dirs b2.2
      (List.mem_map.mpr ⟨b2, hb2, rfl⟩)
    obtain ⟨lead1, rest1, hs1, hlead1, hb2id⟩ := mkBundleCard_id inp.ui_data d' _ _ hmk2
    have hlead1' := List.mem_filter.mp hlead1
    have hveq : lead1 = v := inj hlead1'.1 hvraw.1 (by rw [← hb2id, hb1id])
    have hdd : d' = d := by
      have := hlead1'.2
      rw [hveq] at this
      simp only [decide_eq_true_eq] at this
      rw [hvraw.2] at this
      exact this.symm
    rw [hdd] at hs1
    rw [hs1] at hs
    injection hs with hs_head _
    exact hvne (by rw [← hveq, hs_head])

theorem c3_witness :
    isBundleDir inpA "D" = true ∧
    (idKeys (applyReload inpA) = (applyReload inpA).cards.map (fun c => c.id) ∧
    ∃ lead ∈ bundleMembers inpA "D",
      (∀ v ∈ bundleMembers inpA "D", v ≠ lead → v.last_modified < lead.last_modified) ∧
      (∃ b ∈ (applyReload inpA).cards, b.id = lead.id ∧ b.is_bundle = true ∧
        b.bundle_dir = "D") ∧
      (∀ v ∈ bundleMembers inpA "D", v ≠ lead → v.id ∉ idKeys (applyReload inpA))) :=
  ⟨by decide,
   c3_id_map_after_rebuild inpA "D" ⟨by decide, by decide, by decide⟩
     (by decide) (by decide) (by decide)⟩

theorem mem_replaceCard (cards : List Card) (id : String) (c' x : Card)
    (hx : x ∈ replaceCard cards id c') : x = c' ∨ x ∈ cards := by
  unfold replaceCard at hx
  obtain ⟨c, hc, hce⟩ := List.mem_map.mp hx
  by_cases h : c.id = id
  · rw [if_pos h] at hce
    exact Or.inl hce.symm
  · rw [if_neg h] at hce
    exact Or.inr (hce ▸ hc)

theorem lookupCard_mem (s : CacheState) (id : String) (c : Card)
    (h : lookupCard s id = some c) : c ∈ s.cards :=
  List.mem_of_find?_eq_some h

theorem find?_split (l : List Card) (p : Card → Bool) (c : Card)
    (h : l.find? p = some c) :
    ∃ l1 l2, l = l1 ++ c :: l2 ∧ (∀ x ∈ l1, p x = false) ∧ p c = true ∧
      l.eraseP p = l1 ++ l2 := by
  induction l with
  | nil => simp at h
  | cons x rest ih =>
    by_cases hx : p x
    · rw [List.find?_cons_of_pos _ hx] at h
      injection h with h
      subst h
      exact ⟨[], rest, rfl, by simp, hx, by rw [List.eraseP_cons_of_pos hx]; rfl⟩
    · rw [List.find?_cons_of_neg _ hx] at h
      obtain ⟨l1, l2, he, hl1, hpc, her⟩ := ih h
      refine ⟨x :: l1, l2, by rw [he]; rfl, ?_, hpc, ?_⟩
      · intro y hy
        rcases List.mem_cons.mp hy with rfl | hy
        · simpa using hx
        · exact hl1 y hy
      · rw [List.eraseP_cons_of_neg (by simpa using hx), her]
        rfl

theorem replaceCard_split (cards : List Card) (card_id : String) (card c2 : Card)
    (h : cards.find? (fun c => c.id = card_id) = some card)
    (hnd : (cards.map (fun c => c.id)).Nodup) :
    ∃ l1 l2, cards = l1 ++ card :: l2 ∧ (∀ x ∈ l1, x.id ≠ card_id) ∧
      (∀ x ∈ l2, x.id ≠ card_id) ∧ card.id = card_id ∧
      replaceCard cards card_id c2 = l1 ++ c2 :: l2 := by
  obtain ⟨l1, l2, he, hl1, hpc, _⟩ := find?_split cards _ card h
  have hcid : card.id = card_id := by simpa using hpc
  have hl1' : ∀ x ∈ l1, x.id ≠ card_id := fun x hx => by simpa using hl1 x hx
  have hl2' : ∀ x ∈ l2, x.id ≠ card_id := by
    intro x hx hc
    rw [he] at hnd
    rw [List.map_append, List.map_cons] at hnd
    have h2 := (List.nodup_append.mp hnd).2.1
    rw [List.nodup_cons] at h2
    exact h2.1 (by rw [hcid, ← hc]; exact List.mem_map.mpr ⟨x, hx, rfl⟩)
  refine ⟨l1, l2, he, hl1', hl2', hcid, ?_⟩
  rw [he]
  unfold replaceCard
  rw [List.map_append, List.map_cons]
  congr 1
  · have he1 : ∀ x ∈ l1, (if x.id = card_id then c2 else x) = x :=
      fun x hx => if_neg (hl1' x hx)
    rw [List.map_congr_left he1, List.map_id']
  · rw [if_pos (by simpa using hcid)]
    congr 1
    have he2 : ∀ x ∈ l2, (if x.id = card_id then c2 else x) = x :=
      fun x hx => if_neg (hl2' x hx)
    rw [List.map_congr_left he2, List.map_id']

theorem idKeys_replaceCard (s : CacheState) (card_id : String) (c2 : Card)
    (hc2 : c2.id = card_id) :
    (replaceCard s.cards card_id c2).map (fun c => c.id) =
      s.cards.map (fun c => c.id) := by
  unfold replaceCard
  rw [List.map_map]
  apply List.map_congr_left
  intro x _
  by_cases h : x.id = card_id
  · simp only [Function.comp]
    rw [if_pos h, hc2, h]
  · simp only [Function.comp]
    rw [if_neg h]

theorem getCount_zeroFill (fs : List String) (m : CountMap) (c : String) :
    getCount (fs.foldl
      (fun m2 f => if (List.lookup f m2).isSome then m2 else setCount m2 f 0) m) c =
      getCount m c := by
  induction fs generalizing m with
  | nil => rfl
  | cons f ft ih =>
    rw [List.foldl_cons, ih]
    by_cases h : (List.lookup f m).isSome
    · rw [if_pos h]
    · rw [if_neg h, getCount_setCount]
      by_cases hc : c = f
      · subst hc
        unfold getCount
        cases hl : List.lookup c m with
        | none => simp
        | some v => rw [hl] at h; simp at h
      · rw [if_neg hc]

theorem empty_not_mem_ancestorPaths (γ : String) (hγ : WFPath γ) :
    "" ∉ ancestorPaths γ := by
  intro hmem
  rcases (mem_ancestorPaths_iff γ hγ "").mp hmem with h | ⟨ρ, hρ⟩
  · exact wfPath_ne_empty γ hγ h.symm
  · exact hγ "" (by
      rw [hρ, splitSlash_append_slash]
      exact List.mem_append.mpr (Or.inl (by
        rw [show splitSlash "" = [""] from rfl]; simp))) rfl

theorem getCount_empty_reloadCountCard (m : CountMap) (γ : String) (hγ : WFCat γ) :
    getCount (reloadCountCard m γ) "" =
      getCount m "" + (if γ = "" then 1 else 0) := by
  unfold reloadCountCard
  rcases hγ with rfl | hγ
  · rw [if_pos rfl]
    unfold reloadBump
    rw [getCount_setCount, if_pos rfl]
    simp
  · rw [if_neg (wfPath_ne_empty γ hγ)]
    rw [getCount_foldl_reloadBump _ ((ancestorPaths_nodup γ hγ).filter _)]
    rw [if_neg (fun hmem => empty_not_mem_ancestorPaths γ hγ (List.mem_filter.mp hmem).1)]
    unfold reloadBump
    rw [getCount_setCount, if_neg (Ne.symm (wfPath_ne_empty γ hγ))]
    rw [if_neg (wfPath_ne_empty γ hγ)]

theorem getCount_empty_reloadCounts (cards : List Card)
    (hwf : ∀ x ∈ cards, WFCat x.category) :
    getCount (reloadCounts cards) "" =
      (cards.countP (fun x => x.category = "") : Int) := by
  unfold reloadCounts
  have key : ∀ (l : List Card) (m : CountMap), (∀ x ∈ l, WFCat x.category) →
      getCount (l.foldl (fun acc x => reloadCountCard acc x.category) m) "" =
        getCount m "" + (l.countP (fun x => x.category = "") : Int) := by
    intro l
    induction l with
    | nil => intro m _; simp
    | cons x rest ih =>
      intro m hl
      rw [List.foldl_cons, ih _ (fun y hy => hl y (by simp [hy]))]
      rw [getCount_empty_reloadCountCard m x.category (hl x (by simp))]
      rw [List.countP_cons]
      by_cases hx : x.category = ""
      · simp [hx]
        ring
      · simp [hx]
  rw [key cards [] hwf]
  simp [getCount, List.lookup]

theorem enrichCardUi_id (u : List (String × UiInfo)) (ib : Bool) (c : Card) :
    (enrichCardUi u ib c).id = c.id := rfl

theorem enrichCardUi_category (u : List (String × UiInfo)) (ib : Bool) (c : Card) :
    (enrichCardUi u ib c).category = c.category := rfl

theorem mkBundleCard_category (u : List (String × UiInfo)) (d : String) (g : List Card)
    (b : Card) (hb : mkBundleCard u d g = some b) : b.category = parentDir d := by
  cases hs : sortByMtimeDesc g with
  | nil => rw [mkBundleCard, hs] at hb; exact absurd hb (by simp)
  | cons lead rest =>
    rw [mkBundleCard, hs] at hb
    injection hb with hb
    rw [← hb]
    rfl

theorem applyReload_cards_wf (inp : ReloadData) (h : WFReload inp) :
    ∀ x ∈ (applyReload inp).cards, WFPath x.id ∧ WFCat x.category := by
  classical
  set raw := inp.rows.map mkRawCard with hraw
  set dirs := dedupKeep ((raw.map (fun c => c.dir_path)).filter (isBundleDir inp)) with hdirs
  have hcards : (applyReload inp).cards =
      ((raw.filter (fun c => !(isBundleDir inp c.dir_path))).map
        (enrichCardUi inp.ui_data false)) ++
      ((dirs.filterMap (fun d' =>
        (mkBundleCard inp.ui_data d' (raw.filter (fun c => c.dir_path = d'))).map
          (fun x => (d', x)))).map (fun p => p.2)) := rfl
  have hrawwf : ∀ c ∈ raw, WFPath c.id ∧ WFCat c.category ∧
      c.dir_path = parentDir c.id := by
    intro c hc
    obtain ⟨r, hr, rfl⟩ := List.mem_map.mp hc
    have hwfid : WFPath (mkRawCard r).id := h.wf_ids r hr
    have hcateq : (mkRawCard r).category = parentDir (mkRawCard r).id := h.cat_eq r hr
    exact ⟨hwfid, hcateq ▸ wfCat_parentDir _ hwfid, rfl⟩
  intro x hx
  rw [hcards] at hx
  rcases List.mem_append.mp hx with hxp | hxb
  · obtain ⟨c1, hc1, rfl⟩ := List.mem_map.mp hxp
    have hc1r := List.mem_of_mem_filter hc1
    obtain ⟨hwfid, hwfcat, _⟩ := hrawwf c1 hc1r
    rw [enrichCardUi_id, enrichCardUi_category]
    exact ⟨hwfid, hwfcat⟩
  · obtain ⟨d', hd', hmk⟩ := mem_bundleCards_src inp.ui_data raw dirs x hxb
    obtain ⟨lead, rest, hs, hleadg, hbid⟩ := mkBundleCard_id inp.ui_data d' _ x hmk
    have hleadr := List.mem_of_mem_filter hleadg
    obtain ⟨hwflead, _, hdp⟩ := hrawwf lead hleadr
    have hld : lead.dir_path = d' := by simpa using (List.mem_filter.mp hleadg).2
    constructor
    · rw [hbid]; exact hwflead
    · rw [mkBundleCard_category inp.ui_data d' _ x hmk]
      have hd2 : d' ≠ "" := by
        rw [hdirs, mem_dedupKeep] at hd'
        have h3 := (List.mem_filter.mp hd').2
        unfold isBundleDir at h3
        intro hcon
        rw [hcon] at h3
        simp at h3
      have hwfd : WFPath d' := by
        have h4 : WFCat d' := by rw [← hld, hdp]; exact wfCat_parentDir _ hwflead
        rcases h4 with hcon | h4
        · exact absurd hcon hd2
        · exact h4
      exact wfCat_parentDir d' hwfd

theorem bundle_parentDir_id (u : List (String × UiInfo)) (raw : List Card)
    (hraw : ∀ c ∈ raw, c.dir_path = parentDir c.id)
    (d' : String) (b : Card)
    (hb : mkBundleCard u d' (raw.filter (fun c => c.dir_path = d')) = some b) :
    parentDir b.id = d' := by
  obtain ⟨lead, rest, hs, hleadg, hbid⟩ := mkBundleCard_id u d' _ b hb
  have hld : lead.dir_path = d' := by simpa using (List.mem_filter.mp hleadg).2
  rw [hbid, ← hraw lead (List.mem_of_mem_filter hleadg), hld]

theorem bundle_ids_nodup (u : List (String × UiInfo)) (raw : List Card)
    (hraw : ∀ c ∈ raw, c.dir_path = parentDir c.id) :
    ∀ dirs : List String, dirs.Nodup →
    (((dirs.filterMap (fun d' =>
        (mkBundleCard u d' (raw.filter (fun c => c.dir_path = d'))).map
          (fun x => (d', x)))).map (fun p => p.2)).map (fun c => c.id)).Nodup := by
  intro dirs
  induction dirs with
  | nil => intro _; simp
  | cons d0 dt ih =>
    intro hnd
    rw [List.nodup_cons] at hnd
    rw [List.filterMap_cons]
    cases hmk : mkBundleCard u d0 (raw.filter (fun c => c.dir_path = d0)) with
    | none => simpa using ih hnd.2
    | some b0 =>
      simp only [Option.map_some', List.map_cons, List.nodup_cons]
      refine ⟨?_, ih hnd.2⟩
      intro hc
      obtain ⟨b1, hb1, hb1id⟩ := List.mem_map.mp hc
      obtain ⟨d1, hd1, hmk1⟩ := mem_bundleCards_src u raw dt b1 hb1
      have hp1 : parentDir b1.id = d1 := bundle_parentDir_id u raw hraw d1 b1 hmk1
      have hp0 : parentDir b0.id = d0 := bundle_parentDir_id u raw hraw d0 b0 hmk
      rw [hb1id, hp0] at hp1
      rw [← hp1] at hd1
      exact hnd.1 hd1

theorem applyReload_idKeys_nodup (inp : ReloadData) (h : WFReload inp) :
    (idKeys (applyReload inp)).Nodup := by
  classical
  set raw := inp.rows.map mkRawCard with hraw
  set dirs := dedupKeep ((raw.map (fun c => c.dir_path)).filter (isBundleDir inp)) with hdirs
  have hcards : (applyReload inp).cards =
      ((raw.filter (fun c => !(isBundleDir inp c.dir_path))).map
        (enrichCardUi inp.ui_data false)) ++
      ((dirs.filterMap (fun d' =>
        (mkBundleCard inp.ui_data d' (raw.filter (fun c => c.dir_path = d'))).map
          (fun x => (d', x)))).map (fun p => p.2)) := rfl
  have hrawid : (raw.map (fun c => c.id)).Nodup := by
    have he : raw.map (fun c => c.id) = inp.rows.map (fun r => normSlashes r.id) := by
      rw [hraw, List.map_map]
      rfl
    rw [he]
    exact h.nodup
  have hrawpd : ∀ c ∈ raw, c.dir_path = parentDir c.id := by
    intro c hc
    obtain ⟨r, hr, rfl⟩ := List.mem_map.mp hc
    rfl
  unfold idKeys
  rw [hcards, List.map_append, List.nodup_append]
  refine ⟨?_, bundle_ids_nodup inp.ui_data raw hrawpd dirs (dedupKeep_nodup _), ?_⟩
  · rw [List.map_map]
    rw [List.map_congr_left (fun c _ =>
      (rfl : ((fun x => x.id) ∘ enrichCardUi inp.ui_data false) c = c.id))]
    exact hrawid.sublist (List.Sublist.map _ (List.filter_sublist raw))
  · intro a ha hb
    obtain ⟨c1e, hc1e, hc1id⟩ := List.mem_map.mp ha
    obtain ⟨c1, hc1, rfl⟩ := List.mem_map.mp hc1e
    have hc1' := List.mem_filter.mp hc1
    obtain ⟨b1, hb1, hb1id⟩ := List.mem_map.mp hb
    obtain ⟨d1, hd1, hmk1⟩ := mem_bundleCards_src inp.ui_data raw dirs b1 hb1
    have hp1 : parentDir b1.id = d1 := bundle_parentDir_id inp.ui_data raw hrawpd d1 b1 hmk1
    have hbdl1 : isBundleDir inp d1 = true := by
      rw [hdirs, mem_dedupKeep] at hd1
      simpa using (List.mem_filter.mp hd1).2
    have haid : a = c1.id := by rw [← hc1id, enrichCardUi_id]
    have hpd : c1.dir_path = d1 := by
      rw [hrawpd c1 hc1'.1, ← hp1, hb1id, haid]
    have hbad := hc1'.2
    rw [hpd, hbdl1] at hbad
    simp at hbad

theorem applyReload_counts (inp : ReloadData) (h : WFReload inp) (c : String)
    (hc : c ≠ "") :
    getCount (applyReload inp).category_counts c =
      (realCount (applyReload inp).cards c : Int) := by
  have hcounts : ∃ fs : List String, (applyReload inp).category_counts =
      fs.foldl (fun m f => if (List.lookup f m).isSome then m else setCount m f 0)
        (reloadCounts (applyReload inp).cards) := ⟨_, rfl⟩
  obtain ⟨fs, hfs⟩ := hcounts
  rw [hfs, getCount_zeroFill]
  exact getCount_reloadCounts _ c (fun x hx => (applyReload_cards_wf inp h x hx).2) hc

theorem applyReload_inv (inp : ReloadData) (h : WFReload inp) :
    CacheInv (applyReload inp) :=
  ⟨applyReload_cards_wf inp h, applyReload_idKeys_nodup inp h,
   fun c hc => applyReload_counts inp h c hc⟩

theorem getCount_dec_inc (m : CountMap) (oldγ newγ : String) (hold : WFCat oldγ)
    (hnew : WFCat newγ) (a b : ℕ) (c' : String) (hc' : c' ≠ "")
    (hm : getCount m c' =
      ((a + (if underCat c' oldγ = true then 1 else 0) + b : ℕ) : Int)) :
    getCount (updateCategoryCount (updateCategoryCount m oldγ (-1)) newγ 1) c' =
      ((a + (if underCat c' newγ = true then 1 else 0) + b : ℕ) : Int) := by
  rw [getCount_updateCategoryCount _ _ _ _ hnew hc',
    getCount_updateCategoryCount _ _ _ _ hold hc', hm]
  by_cases h1 : underCat c' oldγ = true <;> by_cases h2 : underCat c' newγ = true <;>
    simp only [h1, h2, if_true, if_false] <;>
    split_ifs <;> push_cast <;> omega

theorem realCount_replace_eq (l1 l2 : List Card) (a b : Card) (c' : String)
    (hcat : a.category = b.category) :
    realCount (l1 ++ a :: l2) c' = realCount (l1 ++ b :: l2) c' := by
  unfold realCount
  rw [List.countP_append, List.countP_append, List.countP_cons, List.countP_cons, hcat]

theorem getCount_recalcCounts (cards : List Card)
    (hwf : ∀ x ∈ cards, WFCat x.category) (c : String) (hc : c ≠ "") :
    getCount (recalcCounts cards) c = (realCount cards c : Int) := by
  unfold recalcCounts realCount
  have key : ∀ (l : List Card) (m : CountMap), (∀ x ∈ l, WFCat x.category) →
      0 ≤ getCount m c →
      getCount (l.foldl (fun m2 x => updateCategoryCount m2 x.category 1) m) c =
        getCount m c + (l.countP (fun x => underCat c x.category) : Int) := by
    intro l
    induction l with
    | nil => intro m _ _; simp
    | cons x rest ih =>
      intro m hl hm
      rw [List.foldl_cons]
      have hx := hl x (by simp)
      have hstep : getCount (updateCategoryCount m x.category 1) c =
          getCount m c + (if underCat c x.category = true then 1 else 0) := by
        rw [getCount_updateCategoryCount _ _ _ _ hx hc]
        by_cases hu : underCat c x.category = true
        · rw [if_pos hu, if_neg (by omega)]
          simp [hu]
        · rw [if_neg hu]
          simp [hu]
      rw [ih _ (fun y hy => hl y (by simp [hy])) (by rw [hstep]; split_ifs <;> omega),
        hstep, List.countP_cons]
      by_cases hu : underCat c x.category = true
      · rw [if_pos hu]
        simp [hu]
        ring
      · rw [if_neg hu]
        simp [hu]
  rw [key cards [] hwf (by simp [getCount, List.lookup])]
  simp [getCount, List.lookup]

theorem cacheInv_add (s : CacheState) (c : Card) (hwfid : WFPath c.id)
    (hwfcat : WFCat c.category) (hfresh : c.id ∉ idKeys s) (hinv : CacheInv s) :
    CacheInv (add_card_update s c) := by
  obtain ⟨hwf, hnd, hcnt⟩ := hinv
  refine ⟨?_, ?_, ?_⟩
  · intro x hx
    rcases List.mem_append.mp hx with hx | hx
    · exact hwf x hx
    · rw [List.mem_singleton.mp hx]
      exact ⟨hwfid, hwfcat⟩
  · show ((s.cards ++ [c]).map (fun x => x.id)).Nodup
    rw [List.map_append, List.nodup_append]
    refine ⟨hnd, by simp, ?_⟩
    intro a ha hb
    simp only [List.map_cons, List.map_nil, List.mem_singleton] at hb
    rw [hb] at ha
    exact hfresh ha
  · intro c' hc'
    show getCount (updateCategoryCount s.category_counts c.category 1) c' =
      (realCount (s.cards ++ [c]) c' : Int)
    rw [getCount_updateCategoryCount _ _ _ _ hwfcat hc', hcnt c' hc']
    have hreal : realCount (s.cards ++ [c]) c' =
        realCount s.cards c' + (if underCat c' c.category = true then 1 else 0) := by
      unfold realCount
      rw [List.countP_append, List.countP_cons, List.countP_nil, Nat.zero_add]
    rw [hreal]
    by_cases hu : underCat c' c.category = true
    · rw [if_pos hu, if_pos hu, if_neg (by omega)]
      push_cast
      ring
    · rw [if_neg hu, if_neg hu]
      simp

theorem cacheInv_del (s : CacheState) (card_id : String) (hinv : CacheInv s) :
    CacheInv (delete_card_update s card_id) := by
  obtain ⟨hwf, hnd, hcnt⟩ := hinv
  unfold delete_card_update
  cases hlk : lookupCard s card_id with
  | none => exact ⟨hwf, hnd, hcnt⟩
  | some card =>
    obtain ⟨l1, l2, he, hl1, hpc, her⟩ := find?_split s.cards _ card hlk
    refine ⟨?_, ?_, ?_⟩
    · intro x hx
      exact hwf x ((List.eraseP_sublist s.cards).subset hx)
    · show ((s.cards.eraseP _).map (fun x => x.id)).Nodup
      exact hnd.sublist (List.Sublist.map _ (List.eraseP_sublist s.cards))
    · intro c' hc'
      have hwfcard := hwf card (by rw [he]; exact List.mem_append.mpr (Or.inr (by simp)))
      show getCount (updateCategoryCount s.category_counts card.category (-1)) c' =
        (realCount (s.cards.eraseP (fun x => x.id = card_id)) c' : Int)
      rw [getCount_updateCategoryCount _ _ _ _ hwfcard.2 hc', hcnt c' hc', her, he]
      unfold realCount
      rw [List.countP_append, List.countP_append, List.countP_cons]
      by_cases hu : underCat c' card.category = true
      · rw [if_pos hu]
        simp only [hu, if_true]
        rw [if_neg (by push_cast; omega)]
        push_cast
        omega
      · rw [if_neg hu]
        simp only [hu, if_false]
        push_cast
        omega

theorem cacheInv_replace_core (s : CacheState) (card_id : String) (card card2 : Card)
    (hlk : lookupCard s card_id = some card)
    (hwfid2 : WFPath card2.id) (hwfcat2 : WFCat card2.category)
    (hfresh2 : card2.id = card.id ∨ card2.id ∉ idKeys s)
    (hinv : CacheInv s) :
    (∀ x ∈ replaceCard s.cards card_id card2, WFPath x.id ∧ WFCat x.category) ∧
    ((replaceCard s.cards card_id card2).map (fun c => c.id)).Nodup ∧
    (∀ c', c' ≠ "" → getCount (updateCategoryCount (updateCategoryCount
        s.category_counts card.category (-1)) card2.category 1) c' =
      (realCount (replaceCard s.cards card_id card2) c' : Int)) ∧
    (card2.category = card.category → ∀ c', c' ≠ "" →
      getCount s.category_counts c' =
        (realCount (replaceCard s.cards card_id card2) c' : Int)) := by
  obtain ⟨hwf, hnd, hcnt⟩ := hinv
  obtain ⟨l1, l2, he, hl1, hl2, hcid, hrep⟩ :=
    replaceCard_split s.cards card_id card card2 hlk hnd
  have hcardmem : card ∈ s.cards := by
    rw [he]
    exact List.mem_append.mpr (Or.inr (by simp))
  have hwfcard := hwf card hcardmem
  refine ⟨?_, ?_, ?_, ?_⟩
  · intro x hx
    rcases mem_replaceCard s.cards card_id card2 x hx with rfl | hx2
    · exact ⟨hwfid2, hwfcat2⟩
    · exact hwf x hx2
  · rw [hrep, List.map_append, List.map_cons]
    have hnd2 := hnd
    unfold idKeys at hnd2
    rw [he, List.map_append, List.map_cons] at hnd2
    rw [List.nodup_append] at hnd2 ⊢
    obtain ⟨hn1, hn2, hdisj⟩ := hnd2
    rw [List.nodup_cons] at hn2 ⊢
    refine ⟨hn1, ⟨?_, hn2.2⟩, ?_⟩
    · rcases hfresh2 with heq | hni
      · rw [heq]
        exact hn2.1
      · intro hc
        refine hni ?_
        unfold idKeys
        rw [he, List.map_append, List.map_cons]
        exact List.mem_append.mpr (Or.inr (List.mem_cons.mpr (Or.inr hc)))
    · intro a ha hb
      rcases List.mem_cons.mp hb with rfl | hb2
      · rcases hfresh2 with heq | hni
        · exact hdisj ha (heq ▸ List.mem_cons.mpr (Or.inl rfl))
        · refine hni ?_
          unfold idKeys
          rw [he, List.map_append, List.map_cons]
          exact List.mem_append.mpr (Or.inl ha)
      · exact hdisj ha (List.mem_cons.mpr (Or.inr hb2))
  · intro c' hc'
    have hm : getCount s.category_counts c' =
        (((l1.countP (fun x => underCat c' x.category)) +
          (if underCat c' card.category = true then 1 else 0) +
          (l2.countP (fun x => underCat c' x.category)) : ℕ) : Int) := by
      rw [hcnt c' hc', he]
      unfold realCount
      rw [List.countP_append, List.countP_cons]
      push_cast
      ring
    rw [getCount_dec_inc s.category_counts card.category card2.category hwfcard.2 hwfcat2
      _ _ c' hc' hm, hrep]
    unfold realCount
    rw [List.countP_append, List.countP_cons]
    push_cast
    ring
  · intro hcat c' hc'
    rw [hcnt c' hc', hrep, he]
    exact congrArg (fun n : ℕ => (n : Int))
      (realCount_replace_eq l1 l2 card card2 c' hcat.symm)

theorem lookupCard_id (s : CacheState) (card_id : String) (card : Card)
    (h : lookupCard s card_id = some card) : card.id = card_id := by
  have h2 := List.find?_some h
  simpa using h2

theorem update_card_data_some (s : CacheState) (card_id : String) (p : CardPatch)
    (card : Card) (hlk : lookupCard s card_id = some card) :
    update_card_data s card_id p =
      { s with
        cards := replaceCard s.cards card_id
          { applyPatch card p with
            image_url := mkImageUrl (applyPatch card p).id
              (ratStr (applyPatch card p).last_modified)
            thumb_url := mkThumbUrl (applyPatch card p).id
              (ratStr (applyPatch card p).last_modified) }
        category_counts :=
          if card.category ≠ p.category.getD card.category then
            updateCategoryCount (updateCategoryCount s.category_counts card.category (-1))
              (p.category.getD card.category) 1
          else s.category_counts
        global_tags :=
          match p.tags with
          | some ts => sortedUnion s.global_tags ts
          | none => s.global_tags } := by
  unfold update_card_data
  rw [hlk]

theorem cacheInv_upd (s : CacheState) (card_id : String) (p : CardPatch)
    (hwfcat : ∀ γ, p.category = some γ → WFCat γ) (hinv : CacheInv s) :
    CacheInv (update_card_data s card_id p) := by
  obtain ⟨hwf, hnd, hcnt⟩ := hinv
  cases hlk : lookupCard s card_id with
  | none =>
    unfold update_card_data
    rw [hlk]
    exact ⟨hwf, hnd, hcnt⟩
  | some card =>
    have hwfc := hwf card (lookupCard_mem s card_id card hlk)
    have hwfcat2 : WFCat (p.category.getD card.category) := by
      cases hp : p.category with
      | none => simpa using hwfc.2
      | some γ => simpa using hwfcat γ hp
    obtain ⟨h1, h2, h3, h4⟩ := cacheInv_replace_core s card_id card
      { applyPatch card p with
        image_url := mkImageUrl (applyPatch card p).id
          (ratStr (applyPatch card p).last_modified)
        thumb_url := mkThumbUrl (applyPatch card p).id
          (ratStr (applyPatch card p).last_modified) }
      hlk hwfc.1 hwfcat2 (Or.inl rfl) ⟨hwf, hnd, hcnt⟩
    rw [update_card_data_some s card_id p card hlk]
    by_cases hchg : card.category ≠ p.category.getD card.category
    · rw [if_pos hchg]
      exact ⟨h1, h2, h3⟩
    · rw [if_neg hchg]
      exact ⟨h1, h2, h4 (not_ne_iff.mp hchg).symm⟩

theorem cacheInv_tags (s : CacheState) (card_id : String) (new_tags : List String)
    (hinv : CacheInv s) : CacheInv (update_tags_update s card_id new_tags) := by
  obtain ⟨hwf, hnd, hcnt⟩ := hinv
  cases hlk : lookupCard s card_id with
  | none =>
    unfold update_tags_update
    rw [hlk]
    exact ⟨hwf, hnd, hcnt⟩
  | some card =>
    have hwfc := hwf card (lookupCard_mem s card_id card hlk)
    obtain ⟨h1, h2, _, h4⟩ := cacheInv_replace_core s card_id card
      { card with tags := new_tags } hlk hwfc.1 hwfc.2 (Or.inl rfl) ⟨hwf, hnd, hcnt⟩
    unfold update_tags_update
    rw [hlk]
    exact ⟨h1, h2, h4 rfl⟩

theorem cacheInv_fav (s : CacheState) (card_id : String) (b : Bool)
    (hinv : CacheInv s) : CacheInv (toggle_favorite_update s card_id b) := by
  obtain ⟨hwf, hnd, hcnt⟩ := hinv
  cases hlk : lookupCard s card_id with
  | none =>
    unfold toggle_favorite_update
    rw [hlk]
    exact ⟨hwf, hnd, hcnt⟩
  | some card =>
    have hwfc := hwf card (lookupCard_mem s card_id card hlk)
    obtain ⟨h1, h2, _, h4⟩ := cacheInv_replace_core s card_id card
      { card with is_favorite := b } hlk hwfc.1 hwfc.2 (Or.inl rfl) ⟨hwf, hnd, hcnt⟩
    unfold toggle_favorite_update
    rw [hlk]
    exact ⟨h1, h2, h4 rfl⟩

theorem move_card_update_some (s : CacheState)
    (old_id new_id old_category new_category new_filename : String) (mtime? : Option ℚ)
    (card : Card) (hlk : lookupCard s old_id = some card) :
    move_card_update s old_id new_id old_category new_category new_filename mtime? =
      (if old_category ≠ new_category then
        { s with
          cards := replaceCard s.cards old_id
            { card with
              id := new_id
              filename := new_filename
              category := new_category
              last_modified := mtime?.getD card.last_modified
              image_url := mkImageUrl new_id (ratStr (mtime?.getD card.last_modified))
              thumb_url := mkThumbUrl new_id (ratStr (mtime?.getD card.last_modified)) }
          category_counts :=
            updateCategoryCount (updateCategoryCount s.category_counts old_category (-1))
              new_category 1 }
      else
        { s with
          cards := replaceCard s.cards old_id
            { card with
              id := new_id
              filename := new_filename
              category := new_category
              last_modified := mtime?.getD card.last_modified
              image_url := mkImageUrl new_id (ratStr (mtime?.getD card.last_modified))
              thumb_url := mkThumbUrl new_id (ratStr (mtime?.getD card.last_modified)) } }) := by
  unfold move_card_update
  rw [hlk]

theorem cacheInv_move (s : CacheState)
    (old_id new_id old_category new_category new_filename : String) (mtime? : Option ℚ)
    (hwfid : WFPath new_id) (hwfcat : WFCat new_category)
    (hold : ∀ c, lookupCard s old_id = some c → c.category = old_category)
    (hfresh : new_id = old_id ∨ new_id ∉ idKeys s) (hinv : CacheInv s) :
    CacheInv (move_card_update s old_id new_id old_category new_category
      new_filename mtime?) := by
  obtain ⟨hwf, hnd, hcnt⟩ := hinv
  cases hlk : lookupCard s old_id with
  | none =>
    unfold move_card_update
    rw [hlk]
    exact ⟨hwf, hnd, hcnt⟩
  | some card =>
    have hfresh2 : new_id = card.id ∨ new_id ∉ idKeys s := by
      rcases hfresh with heq | hni
      · exact Or.inl (heq.trans (lookupCard_id s old_id card hlk).symm)
      · exact Or.inr hni
    obtain ⟨h1, h2, h3, h4⟩ := cacheInv_replace_core s old_id card
      { card with
        id := new_id
        filename := new_filename
        category := new_category
        last_modified := mtime?.getD card.last_modified
        image_url := mkImageUrl new_id (ratStr (mtime?.getD card.last_modified))
        thumb_url := mkThumbUrl new_id (ratStr (mtime?.getD card.last_modified)) }
      hlk hwfid hwfcat hfresh2 ⟨hwf, hnd, hcnt⟩
    rw [move_card_update_some s old_id new_id old_category new_category new_filename
      mtime? card hlk]
    by_cases hchg : old_category ≠ new_category
    · rw [if_pos hchg]
      refine ⟨h1, h2, ?_⟩
      rw [← hold card hlk]
      exact h3
    · rw [if_neg hchg]
      exact ⟨h1, h2, h4 ((not_ne_iff.mp hchg).symm.trans (hold card hlk).symm)⟩

theorem moveFolderRewrite_id (oldP newP : String) (card : Card)
    (h : strStarts (oldP ++ "/") card.id = true) :
    ∃ ρ, card.id = oldP ++ "/" ++ ρ ∧
      (moveFolderRewrite oldP newP card).id = newP ++ "/" ++ ρ := by
  obtain ⟨r, hr⟩ := (strStarts_iff _ _).mp h
  refine ⟨r, hr, ?_⟩
  show newP ++ strDrop card.id (strLen oldP) = newP ++ "/" ++ r
  rw [hr, strAppend_assoc oldP "/" r, strDrop_concat, ← strAppend_assoc]

theorem moveFolderRewrite_wf (oldP newP : String) (card : Card)
    (hwfn : WFPath newP) (hid : WFPath card.id) (hcat : WFCat card.category)
    (h : strStarts (oldP ++ "/") card.id = true) :
    WFPath (moveFolderRewrite oldP newP card).id ∧
      WFCat (moveFolderRewrite oldP newP card).category := by
  obtain ⟨ρ, hidEq, hnew⟩ := moveFolderRewrite_id oldP newP card h
  have hρ : WFPath ρ := (wfPath_of_append_slash _ _ (hidEq ▸ hid)).2
  have hwfnew : WFPath (newP ++ "/" ++ ρ) := wfPath_append_slash _ _ hwfn hρ
  refine ⟨hnew ▸ hwfnew, ?_⟩
  show WFCat (if card.category = oldP then newP
    else if strStarts (oldP ++ "/") card.category then
      newP ++ strDrop card.category (strLen oldP)
    else parentDir (newP ++ strDrop card.id (strLen oldP)))
  by_cases h1 : card.category = oldP
  · rw [if_pos h1]
    exact Or.inr hwfn
  · rw [if_neg h1]
    by_cases h2 : strStarts (oldP ++ "/") card.category = true
    · rw [if_pos h2]
      obtain ⟨r2, hr2⟩ := (strStarts_iff _ _).mp h2
      have hwfc : WFPath card.category := by
        rcases hcat with hc | hc
        · rw [hc] at hr2
          exact absurd hr2.symm (slash_append_ne_empty oldP r2)
        · exact hc
      have hρ2 : WFPath r2 := (wfPath_of_append_slash _ _ (hr2 ▸ hwfc)).2
      rw [hr2, strAppend_assoc oldP "/" r2, strDrop_concat, ← strAppend_assoc]
      exact Or.inr (wfPath_append_slash _ _ hwfn hρ2)
    · rw [if_neg h2]
      have he : newP ++ strDrop card.id (strLen oldP) = newP ++ "/" ++ ρ := hnew
      rw [he]
      exact wfCat_parentDir _ hwfnew

theorem cacheInv_movedir (s : CacheState) (oldP newP : String)
    (hwfnew : WFPath newP)
    (hfresh : ∀ id ∈ idKeys s, strStarts (newP ++ "/") id = false)
    (hinv : CacheInv s) : CacheInv (move_folder_update s oldP newP) := by
  obtain ⟨hwf, hnd, _⟩ := hinv
  have hwf' : ∀ x ∈ (move_folder_update s oldP newP).cards,
      WFPath x.id ∧ WFCat x.category := by
    intro x hx
    obtain ⟨c, hc, rfl⟩ := List.mem_map.mp hx
    by_cases hst : strStarts (oldP ++ "/") c.id = true
    · rw [if_pos hst]
      exact moveFolderRewrite_wf oldP newP c hwfnew (hwf c hc).1 (hwf c hc).2 hst
    · rw [if_neg hst]
      exact hwf c hc
  refine ⟨hwf', ?_, ?_⟩
  · show ((s.cards.map (fun c =>
      if strStarts (oldP ++ "/") c.id then moveFolderRewrite oldP newP c else c)).map
        (fun c => c.id)).Nodup
    rw [List.map_map]
    have hcardsnd : s.cards.Nodup := List.Nodup.of_map _ hnd
    have inj := List.inj_on_of_nodup_map hnd
    refine List.Nodup.map_on ?_ hcardsnd
    intro x hx y hy hxy
    simp only [Function.comp] at hxy
    refine inj hx hy ?_
    by_cases h1 : strStarts (oldP ++ "/") x.id = true <;>
      by_cases h2 : strStarts (oldP ++ "/") y.id = true
    · rw [if_pos h1, if_pos h2] at hxy
      obtain ⟨ρ1, hx1, hx2⟩ := moveFolderRewrite_id oldP newP x h1
      obtain ⟨ρ2, hy1, hy2⟩ := moveFolderRewrite_id oldP newP y h2
      rw [hx2, hy2] at hxy
      have hρ := strAppend_left_cancel (newP ++ "/") ρ1 ρ2 hxy
      rw [hx1, hy1, hρ]
    · rw [if_pos h1, if_neg h2] at hxy
      obtain ⟨ρ1, hx1, hx2⟩ := moveFolderRewrite_id oldP newP x h1
      rw [hx2] at hxy
      have hbad := hfresh y.id (List.mem_map.mpr ⟨y, hy, rfl⟩)
      rw [← hxy] at hbad
      rw [(strStarts_iff _ _).mpr ⟨ρ1, rfl⟩] at hbad
      exact absurd hbad (by simp)
    · rw [if_neg h1, if_pos h2] at hxy
      obtain ⟨ρ2, hy1, hy2⟩ := moveFolderRewrite_id oldP newP y h2
      rw [hy2] at hxy
      have hbad := hfresh x.id (List.mem_map.mpr ⟨x, hx, rfl⟩)
      rw [hxy] at hbad
      rw [(strStarts_iff _ _).mpr ⟨ρ2, rfl⟩] at hbad
      exact absurd hbad (by simp)
    · rw [if_neg h1, if_neg h2] at hxy
      exact hxy
  · intro c hc
    show getCount (recalcCounts (s.cards.map (fun c =>
      if strStarts (oldP ++ "/") c.id then moveFolderRewrite oldP newP c else c))) c = _
    exact getCount_recalcCounts _ (fun x hx => (hwf' x hx).2) c hc

theorem cacheInv_step (s t : CacheState) (hst : Step s t) (hinv : CacheInv s) :
    CacheInv t := by
  cases hst with
  | add c hwfid hwfcat hfresh => exact cacheInv_add s c hwfid hwfcat hfresh hinv
  | del card_id => exact cacheInv_del s card_id hinv
  | upd card_id p hwfcat => exact cacheInv_upd s card_id p hwfcat hinv
  | tags card_id new_tags => exact cacheInv_tags s card_id new_tags hinv
  | fav card_id b => exact cacheInv_fav s card_id b hinv
  | move old_id new_id old_category new_category new_filename mtime? hwfid hwfcat
      hold hfresh =>
    exact cacheInv_move s old_id new_id old_category new_category new_filename mtime?
      hwfid hwfcat hold hfresh hinv
  | movedir oldP newP hwfold hwfnew hfresh =>
    exact cacheInv_movedir s oldP newP hwfnew hfresh hinv

theorem reachable_inv (s : CacheState) (hs : Reachable s) : CacheInv s := by
  induction hs with
  | rebuild inp h => exact applyReload_inv inp h
  | step hs hst ih => exact cacheInv_step _ _ hst ih

theorem rootSeg_mem (γ : String) : rootSeg γ ∈ splitSlash γ := by
  cases hs : splitSlash γ with
  | nil => exact absurd hs (splitSlash_ne_nil γ)
  | cons p rest =>
    unfold rootSeg
    rw [hs]
    simp

theorem rootSeg_underCat (γ : String) (_hγ : WFPath γ) :
    underCat (rootSeg γ) γ = true := by
  cases hs : splitSlash γ with
  | nil => exact absurd hs (splitSlash_ne_nil γ)
  | cons p rest =>
    have hr : rootSeg γ = p := by
      unfold rootSeg
      rw [hs]
      rfl
    have hγeq : γ = joinSlash (p :: rest) := by rw [← hs, joinSlash_splitSlash]
    rw [hr]
    cases rest with
    | nil =>
      have hγp : γ = p := hγeq
      unfold underCat
      rw [hγp]
      simp
    | cons q qt =>
      have hγp : γ = p ++ "/" ++ joinSlash (q :: qt) := hγeq
      unfold underCat
      rw [Bool.or_eq_true]
      exact Or.inr ((strStarts_iff _ _).mpr ⟨joinSlash (q :: qt), hγp⟩)

theorem underCat_rootSeg (k γ : String) (hk : '/' ∉ k.data)
    (h : underCat k γ = true) : k = rootSeg γ := by
  unfold underCat at h
  rw [Bool.or_eq_true, decide_eq_true_eq, strStarts_iff] at h
  rcases h with h | ⟨r, hr⟩
  · unfold rootSeg
    rw [h, splitSlash_eq_single k hk]
    rfl
  · unfold rootSeg
    rw [hr, splitSlash_append_slash k r, splitSlash_eq_single k hk]
    rfl

theorem lookup_ne_none_mem_keys (m : CountMap) (k : String)
    (h : List.lookup k m ≠ none) : k ∈ m.map Prod.fst := by
  induction m with
  | nil => simp [List.lookup] at h
  | cons p rest ih =>
    obtain ⟨a, b⟩ := p
    rw [List.map_cons]
    by_cases hk : k = a
    · exact List.mem_cons.mpr (Or.inl hk)
    · have he : List.lookup k ((a, b) :: rest) = List.lookup k rest := by
        simp [List.lookup, beq_eq_false_iff_ne.mpr hk]
      rw [he] at h
      exact List.mem_cons.mpr (Or.inr (ih h))

theorem mem_rootKeys (m : CountMap) (k : String) :
    k ∈ rootKeys m ↔
      k ∈ m.map Prod.fst ∧ containsSlash k = false ∧ k ≠ "" := by
  unfold rootKeys
  rw [mem_dedupKeep, List.mem_filter]
  constructor
  · rintro ⟨h1, h2⟩
    rw [Bool.and_eq_true] at h2
    refine ⟨h1, by simpa using h2.1, by simpa using h2.2⟩
  · rintro ⟨h1, h2, h3⟩
    refine ⟨h1, ?_⟩
    rw [Bool.and_eq_true]
    exact ⟨by simp [h2], by simpa using h3⟩

theorem rootKeys_nodup (m : CountMap) : (rootKeys m).Nodup := dedupKeep_nodup _

theorem countP_eq_one_of_nodup (l : List String) (hnd : l.Nodup) (r : String)
    (hr : r ∈ l) (p : String → Bool) (hp : ∀ k ∈ l, p k = true ↔ k = r) :
    l.countP p = 1 := by
  induction l with
  | nil => simp at hr
  | cons a t ih =>
    rw [List.nodup_cons] at hnd
    rw [List.countP_cons]
    rcases List.mem_cons.mp hr with rfl | hrt
    · have hz : List.countP p t = 0 := by
        apply List.countP_eq_zero.mpr
        intro k hk hpk
        exact hnd.1 (((hp k (by simp [hk])).mp hpk) ▸ hk)
      rw [hz, (hp r (by simp)).mpr rfl]
      simp
    · have hpa : p a = false := by
        rw [← Bool.not_eq_true]
        intro hc
        exact hnd.1 ((hp a (by simp)).mp hc ▸ hrt)
      rw [hpa, ih hnd.2 hrt (fun k hk => hp k (by simp [hk]))]
      simp

theorem sum_map_add {α : Type} (l : List α) (f g : α → ℕ) :
    (l.map (fun x => f x + g x)).sum = (l.map f).sum + (l.map g).sum := by
  induction l with
  | nil => rfl
  | cons a t ih =>
    simp only [List.map_cons, List.sum_cons, ih]
    omega

theorem countP_eq_sum_map {α : Type} (l : List α) (p : α → Bool) :
    l.countP p = (l.map (fun x => if p x then 1 else 0)).sum := by
  induction l with
  | nil => rfl
  | cons a t ih =>
    rw [List.countP_cons, List.map_cons, List.sum_cons, ih]
    omega

theorem sum_countP_swap (K : List String) (cards : List Card)
    (p : String → Card → Bool) :
    (K.map (fun k => cards.countP (p k))).sum =
      (cards.map (fun x => K.countP (fun k => p k x))).sum := by
  induction K with
  | nil => simp [List.countP_nil]
  | cons k K2 ih =>
    rw [List.map_cons, List.sum_cons, ih, countP_eq_sum_map cards (p k), ← sum_map_add]
    apply congrArg
    apply List.map_congr_left
    intro x _
    rw [List.countP_cons]
    omega

theorem sum_map_natCast {α : Type} (l : List α) (f : α → ℕ) :
    (l.map (fun x => (f x : Int))).sum = ((l.map f).sum : Int) := by
  induction l with
  | nil => rfl
  | cons a t ih =>
    rw [List.map_cons, List.sum_cons, ih, List.map_cons, List.sum_cons]
    push_cast
    ring

theorem rootKeySum_eq (m : CountMap) (cards : List Card)
    (hinv : ∀ c, c ≠ "" → getCount m c = (realCount cards c : Int))
    (hwf : ∀ x ∈ cards, WFCat x.category) :
    rootKeySum m = (cards.countP (fun x => !decide (x.category = "")) : Int) := by
  unfold rootKeySum
  have h1 : (rootKeys m).map (getCount m) =
      (rootKeys m).map (fun k => ((realCount cards k : ℕ) : Int)) := by
    apply List.map_congr_left
    intro k hk
    exact hinv k ((mem_rootKeys m k).mp hk).2.2
  rw [h1, sum_map_natCast]
  have h2 : (rootKeys m).map (realCount cards) =
      (rootKeys m).map (fun k => cards.countP (fun x => underCat k x.category)) := rfl
  rw [h2, sum_countP_swap]
  have h3 : cards.map (fun x => (rootKeys m).countP (fun k => underCat k x.category)) =
      cards.map (fun x => if x.category = "" then 0 else 1) := by
    apply List.map_congr_left
    intro x hx
    by_cases hcat : x.category = ""
    · rw [if_pos hcat]
      apply List.countP_eq_zero.mpr
      intro k hk
      rw [hcat, underCat_empty k ((mem_rootKeys m k).mp hk).2.2]
      simp
    · rw [if_neg hcat]
      have hwfγ : WFPath x.category := by
        rcases hwf x hx with hc | hc
        · exact absurd hc hcat
        · exact hc
      have hrs_ne : rootSeg x.category ≠ "" := hwfγ _ (rootSeg_mem _)
      have hrs_nosl : '/' ∉ (rootSeg x.category).data :=
        mem_splitSlash_no_slash _ _ (rootSeg_mem _)
      have hrs_mem : rootSeg x.category ∈ rootKeys m := by
        rw [mem_rootKeys]
        refine ⟨?_, ?_, hrs_ne⟩
        · apply lookup_ne_none_mem_keys
          intro hnone
          have hg : getCount m (rootSeg x.category) = 0 := by
            unfold getCount
            rw [hnone]
            rfl
          have hreal := hinv (rootSeg x.category) hrs_ne
          rw [hg] at hreal
          have hpos : 0 < realCount cards (rootSeg x.category) := by
            apply List.countP_pos_iff.mpr
            exact ⟨x, hx, rootSeg_underCat x.category hwfγ⟩
          omega
        · cases hcs : containsSlash (rootSeg x.category) with
          | false => rfl
          | true => exact absurd ((containsSlash_iff _).mp hcs) hrs_nosl
      refine countP_eq_one_of_nodup (rootKeys m) (rootKeys_nodup m) _ hrs_mem _ ?_
      intro k hk
      constructor
      · intro hp
        exact underCat_rootSeg k x.category
          (fun hc => absurd ((containsSlash_iff k).mpr hc)
            (by rw [((mem_rootKeys m k).mp hk).2.1]; simp)) hp
      · intro he
        rw [he]
        exact rootSeg_underCat x.category hwfγ
  rw [h3, countP_eq_sum_map]
  apply congrArg
  apply congrArg
  apply List.map_congr_left
  intro x _
  by_cases hcat : x.category = "" <;> simp [hcat]

theorem countP_not_add {α : Type} (l : List α) (p : α → Bool) :
    l.countP p + l.countP (fun a => !p a) = l.length := by
  induction l with
  | nil => rfl
  | cons a t ih =>
    rw [List.countP_cons, List.countP_cons, List.length_cons]
    cases h : p a <;> simp [h] <;> omega

/-- C2 as amended: in every reachable state the count of every *non-empty*
category path equals its direct display entries plus all entries under its
descendant categories, and the sum of the root-level (non-empty, slash-free)
keys' counts equals the number of display entries with a non-empty category.
The spec's remaining assertions hold only immediately after a full rebuild:
there `category_counts[""]` equals the number of root-category entries and,
together with the root-level sum, accounts for every entry of `cards`.
Incremental operations do not maintain the `""` count
(`_update_category_count` skips the empty category), so `counts[""]` and the
all-of-`cards` sum go stale — see the counterexample. -/
theorem c2_category_counts (s : CacheState) (hs : Reachable s) :
    (∀ c, c ≠ "" → getCount s.category_counts c = (realCount s.cards c : Int)) ∧
    (rootKeySum s.category_counts =
      (s.cards.countP (fun x => !decide (x.category = "")) : Int)) ∧
    (∀ inp : ReloadData, WFReload inp →
      getCount (applyReload inp).category_counts "" =
        ((applyReload inp).cards.countP (fun x => decide (x.category = "")) : Int) ∧
      getCount (applyReload inp).category_counts "" +
        rootKeySum (applyReload inp).category_counts =
        ((applyReload inp).cards.length : Int)) := by
  obtain ⟨hwf, hnd, hcnt⟩ := reachable_inv s hs
  refine ⟨hcnt, rootKeySum_eq _ _ hcnt (fun x hx => (hwf x hx).2), ?_⟩
  intro inp hinp
  obtain ⟨hwf2, _, hcnt2⟩ := applyReload_inv inp hinp
  have hwfc2 : ∀ x ∈ (applyReload inp).cards, WFCat x.category :=
    fun x hx => (hwf2 x hx).2
  have hempty : getCount (applyReload inp).category_counts "" =
      ((applyReload inp).cards.countP (fun x => decide (x.category = "")) : Int) := by
    have hzf : ∃ fs : List String, (applyReload inp).category_counts =
        fs.foldl (fun m f => if (List.lookup f m).isSome then m else setCount m f 0)
          (reloadCounts (applyReload inp).cards) := ⟨_, rfl⟩
    obtain ⟨fs, hfs⟩ := hzf
    rw [hfs, getCount_zeroFill]
    exact getCount_empty_reloadCounts _ hwfc2
  refine ⟨hempty, ?_⟩
  rw [hempty, rootKeySum_eq _ _ hcnt2 hwfc2]
  rw [show ((applyReload inp).cards.countP (fun x => decide (x.category = "")) : Int) +
      ((applyReload inp).cards.countP (fun x => !decide (x.category = "")) : Int) =
      (((applyReload inp).cards.countP (fun x => decide (x.category = "")) +
        (applyReload inp).cards.countP (fun x => !decide (x.category = "")) : ℕ) : Int)
    from by push_cast; ring]
  rw [countP_not_add]

/-- C2 witness: the amended invariant evaluated on the concrete library. -/
theorem c2_witness :
    (∀ c, c ≠ "" → getCount (applyReload inpA).category_counts c =
      (realCount (applyReload inpA).cards c : Int)) ∧
    (rootKeySum (applyReload inpA).category_counts =
      ((applyReload inpA).cards.countP (fun x => !decide (x.category = "")) : Int)) ∧
    (∀ inp : ReloadData, WFReload inp →
      getCount (applyReload inp).category_counts "" =
        ((applyReload inp).cards.countP (fun x => decide (x.category = "")) : Int) ∧
      getCount (applyReload inp).category_counts "" +
        rootKeySum (applyReload inp).category_counts =
        ((applyReload inp).cards.length : Int)) :=
  c2_category_counts (applyReload inpA)
    (Reachable.rebuild inpA ⟨by decide, by decide, by decide⟩)

/-- C2 counterexample: after `add_card_update` of a root-category card the
`""` count is stale (2 root entries counted, 3 present) and the `""` count
plus the root-level sum no longer equals `len(cards)`. -/
theorem c2_counterexample :
    getCount (add_card_update (applyReload inpA) cardNew).category_counts "" = 2 ∧
    ((add_card_update (applyReload inpA) cardNew).cards.filter
      (fun c => c.category = "")).length = 3 ∧
    getCount (add_card_update (applyReload inpA) cardNew).category_counts "" +
      rootKeySum (add_card_update (applyReload inpA) cardNew).category_counts ≠
      ((add_card_update (applyReload inpA) cardNew).cards.length : Int) :=
  ⟨by decide, by decide, by decide⟩

theorem find?_of_mem_nodup (l : List Card) (hnd : (l.map (fun c => c.id)).Nodup)
    (x : Card) (hx : x ∈ l) : l.find? (fun c => c.id = x.id) = some x := by
  induction l with
  | nil => simp at hx
  | cons a t ih =>
    rw [List.map_cons, List.nodup_cons] at hnd
    rcases List.mem_cons.mp hx with rfl | hxt
    · rw [List.find?_cons_of_pos _ (by simp)]
    · by_cases hax : a.id = x.id
      · exact absurd (hax ▸ List.mem_map.mpr ⟨x, hxt, rfl⟩) hnd.1
      · rw [List.find?_cons_of_neg _ (by simpa using hax)]
        exact ih hnd.2 hxt

theorem find?_map_moveFolder (oldP newP id : String) (l : List Card)
    (hid1 : strStarts (oldP ++ "/") id = false)
    (hid2 : strStarts (newP ++ "/") id = false) :
    (l.map (fun c => if strStarts (oldP ++ "/") c.id then moveFolderRewrite oldP newP c
      else c)).find? (fun c => c.id = id) = l.find? (fun c => c.id = id) := by
  induction l with
  | nil => rfl
  | cons a t ih =>
    rw [List.map_cons]
    by_cases hst : strStarts (oldP ++ "/") a.id = true
    · rw [if_pos hst]
      obtain ⟨ρ, ha1, ha2⟩ := moveFolderRewrite_id oldP newP a hst
      have hne_new : ¬((moveFolderRewrite oldP newP a).id = id) := by
        intro hc
        rw [ha2] at hc
        rw [← hc, (strStarts_iff _ _).mpr ⟨ρ, rfl⟩] at hid2
        exact absurd hid2 (by simp)
      have hne_old : ¬(a.id = id) := by
        intro hc
        rw [ha1] at hc
        rw [← hc, (strStarts_iff _ _).mpr ⟨ρ, rfl⟩] at hid1
        exact absurd hid1 (by simp)
      rw [List.find?_cons_of_neg _ (by simpa using hne_new),
        List.find?_cons_of_neg _ (by simpa using hne_old)]
      exact ih
    · rw [if_neg hst]
      by_cases ha : a.id = id
      · rw [List.find?_cons_of_pos _ (by simpa using ha),
          List.find?_cons_of_pos _ (by simpa using ha)]
      · rw [List.find?_cons_of_neg _ (by simpa using ha),
          List.find?_cons_of_neg _ (by simpa using ha)]
        exact ih

theorem moveFolderRewrite_cat_ne (oldP newP : String) (x : Card)
    (hwfold : WFPath oldP) (hwfnew : WFPath newP)
    (hcompat : x.category = oldP ∨ strStarts (oldP ++ "/") x.category = true) :
    x.category ≠ "" ∧ (moveFolderRewrite oldP newP x).category ≠ "" := by
  constructor
  · rcases hcompat with hc | hc
    · rw [hc]
      exact wfPath_ne_empty oldP hwfold
    · obtain ⟨r, hr⟩ := (strStarts_iff _ _).mp hc
      rw [hr]
      exact slash_append_ne_empty oldP r
  · show (if x.category = oldP then newP
      else if strStarts (oldP ++ "/") x.category then
        newP ++ strDrop x.category (strLen oldP)
      else parentDir (newP ++ strDrop x.id (strLen oldP))) ≠ ""
    by_cases h1 : x.category = oldP
    · rw [if_pos h1]
      exact wfPath_ne_empty newP hwfnew
    · rw [if_neg h1]
      rcases hcompat with hc | hc
      · exact absurd hc h1
      · rw [if_pos hc]
        obtain ⟨r, hr⟩ := (strStarts_iff _ _).mp hc
        rw [hr, strAppend_assoc oldP "/" r, strDrop_concat, ← strAppend_assoc]
        exact slash_append_ne_empty newP r

theorem countP_congr_mem {α : Type} (l : List α) (p q : α → Bool)
    (h : ∀ a ∈ l, p a = q a) : l.countP p = l.countP q := by
  induction l with
  | nil => rfl
  | cons a t ih =>
    rw [List.countP_cons, List.countP_cons, h a (by simp),
      ih (fun b hb => h b (by simp [hb]))]

/-- C6: after `move_folder_update(oldP, newP)` on a reachable state in which
no id is already under `newP + "/"` and every card under `oldP + "/"` is
categorised at or under `oldP`, every previously `oldP/`-prefixed id is
present `newP/`-prefixed in `id_map` (mapping to the rewritten card), no id
is duplicated or lost (key set stays duplicate-free and the entry count is
unchanged), lookups of unaffected ids are unchanged, `category_counts` is
recomputed in full (every non-empty path's count again equals its entries at
or below it) with the root-level total unchanged, and `visible_folders` is
rewritten by prefix substitution. -/
theorem c6_move_folder (s : CacheState) (hs : Reachable s) (oldP newP : String)
    (hwfold : WFPath oldP) (hwfnew : WFPath newP)
    (hfresh : ∀ id ∈ idKeys s, strStarts (newP ++ "/") id = false)
    (hcompat : ∀ x ∈ s.cards, strStarts (oldP ++ "/") x.id = true →
      x.category = oldP ∨ strStarts (oldP ++ "/") x.category = true) :
    (∀ x ∈ s.cards, strStarts (oldP ++ "/") x.id = true →
      ∃ ρ, x.id = oldP ++ "/" ++ ρ ∧
        lookupCard (move_folder_update s oldP newP) (newP ++ "/" ++ ρ) =
          some (moveFolderRewrite oldP newP x) ∧
        strStarts (newP ++ "/") (moveFolderRewrite oldP newP x).id = true) ∧
    (idKeys (move_folder_update s oldP newP)).Nodup ∧
    (move_folder_update s oldP newP).cards.length = s.cards.length ∧
    (∀ id, strStarts (oldP ++ "/") id = false → strStarts (newP ++ "/") id = false →
      lookupCard (move_folder_update s oldP newP) id = lookupCard s id) ∧
    (∀ c, c ≠ "" → getCount (move_folder_update s oldP newP).category_counts c =
      (realCount (move_folder_update s oldP newP).cards c : Int)) ∧
    rootKeySum (move_folder_update s oldP newP).category_counts =
      rootKeySum s.category_counts ∧
    (move_folder_update s oldP newP).visible_folders =
      sortStr (s.visible_folders.map (substFolder oldP newP)) := by
  obtain ⟨hwfS, hndS, hcntS⟩ := reachable_inv s hs
  obtain ⟨hwfT, hndT, hcntT⟩ :=
    cacheInv_movedir s oldP newP hwfnew hfresh ⟨hwfS, hndS, hcntS⟩
  refine ⟨?_, hndT, ?_, ?_, hcntT, ?_, rfl⟩
  · intro x hx hst
    obtain ⟨ρ, hx1, hx2⟩ := moveFolderRewrite_id oldP newP x hst
    refine ⟨ρ, hx1, ?_, by rw [hx2]; exact (strStarts_iff _ _).mpr ⟨ρ, rfl⟩⟩
    have hmem : moveFolderRewrite oldP newP x ∈ (move_folder_update s oldP newP).cards := by
      refine List.mem_map.mpr ⟨x, hx, ?_⟩
      rw [if_pos hst]
    have hfind := find?_of_mem_nodup (move_folder_update s oldP newP).cards hndT
      (moveFolderRewrite oldP newP x) hmem
    rw [hx2] at hfind
    exact hfind
  · show ((s.cards.map _).length = s.cards.length)
    rw [List.length_map]
  · intro id hid1 hid2
    show ((s.cards.map (fun c => if strStarts (oldP ++ "/") c.id then
      moveFolderRewrite oldP newP c else c)).find? (fun c => c.id = id)) = _
    exact find?_map_moveFolder oldP newP id s.cards hid1 hid2
  · rw [rootKeySum_eq _ (move_folder_update s oldP newP).cards hcntT
      (fun x hx => (hwfT x hx).2),
      rootKeySum_eq _ s.cards hcntS (fun x hx => (hwfS x hx).2)]
    have hpres : (move_folder_update s oldP newP).cards.countP
        (fun x => !decide (x.category = "")) =
        s.cards.countP (fun x => !decide (x.category = "")) := by
      show ((s.cards.map (fun c => if strStarts (oldP ++ "/") c.id then
        moveFolderRewrite oldP newP c else c)).countP
          (fun x => !decide (x.category = ""))) = _
      rw [List.countP_map]
      apply countP_congr_mem
      intro a ha
      by_cases hst : strStarts (oldP ++ "/") a.id = true
      · simp only [Function.comp, if_pos hst]
        obtain ⟨hne1, hne2⟩ := moveFolderRewrite_cat_ne oldP newP a hwfold hwfnew
          (hcompat a ha hst)
        simp [hne1, hne2]
      · simp only [Function.comp, if_neg hst]
    rw [hpres]

/-- C6 witness: moving `"Cats"` to `"Dogs"` in the concrete library. -/
theorem c6_witness :
    (∀ x ∈ (applyReload inpA).cards, strStarts ("Cats" ++ "/") x.id = true →
      ∃ ρ, x.id = "Cats" ++ "/" ++ ρ ∧
        lookupCard (move_folder_update (applyReload inpA) "Cats" "Dogs")
          ("Dogs" ++ "/" ++ ρ) = some (moveFolderRewrite "Cats" "Dogs" x) ∧
        strStarts ("Dogs" ++ "/") (moveFolderRewrite "Cats" "Dogs" x).id = true) ∧
    (idKeys (move_folder_update (applyReload inpA) "Cats" "Dogs")).Nodup ∧
    (move_folder_update (applyReload inpA) "Cats" "Dogs").cards.length =
      (applyReload inpA).cards.length ∧
    (∀ id, strStarts ("Cats" ++ "/") id = false → strStarts ("Dogs" ++ "/") id = false →
      lookupCard (move_folder_update (applyReload inpA) "Cats" "Dogs") id =
        lookupCard (applyReload inpA) id) ∧
    (∀ c, c ≠ "" →
      getCount (move_folder_update (applyReload inpA) "Cats" "Dogs").category_counts c =
      (realCount (move_folder_update (applyReload inpA) "Cats" "Dogs").cards c : Int)) ∧
    rootKeySum (move_folder_update (applyReload inpA) "Cats" "Dogs").category_counts =
      rootKeySum (applyReload inpA).category_counts ∧
    (move_folder_update (applyReload inpA) "Cats" "Dogs").visible_folders =
      sortStr ((applyReload inpA).visible_folders.map (substFolder "Cats" "Dogs")) :=
  c6_move_folder (applyReload inpA)
    (Reachable.rebuild inpA ⟨by decide, by decide, by decide⟩)
    "Cats" "Dogs" (by decide) (by decide) (by decide) (by decide)

theorem applyReload_global_tags (inp : ReloadData) (t : String) :
    t ∈ (applyReload inp).global_tags ↔
      ∃ card ∈ (applyReload inp).cards, t ∈ card.tags := by
  show t ∈ sortStr (dedupKeep ((buildFinalCards inp).1.flatMap (fun c => c.tags))) ↔ _
  rw [mem_sortStr, mem_dedupKeep, List.mem_flatMap]
  exact Iff.rfl

/-- C9 as amended: in every reachable state `global_tags` is sorted and is a
superset of every card's tag set; immediately after a full rebuild it equals
the set union of all cards' tags.  (Incremental updates only ever add tags,
so a tag removed by `UpdateTags` stays in `global_tags` until the next
rebuild.) -/
theorem c9_global_tags_superset (s : CacheState) (hs : Reachable s) :
    s.global_tags.Pairwise (fun a b => strLe a b = true) ∧
    (∀ card ∈ s.cards, ∀ t ∈ card.tags, t ∈ s.global_tags) ∧
    (∀ inp : ReloadData, ∀ t : String,
      t ∈ (applyReload inp).global_tags ↔
        ∃ card ∈ (applyReload inp).cards, t ∈ card.tags) := by
  have main : s.global_tags.Pairwise (fun a b => strLe a b = true) ∧
      (∀ card ∈ s.cards, ∀ t ∈ card.tags, t ∈ s.global_tags) := by
    induction hs with
    | rebuild inp h =>
      refine ⟨sortStr_sorted _, ?_⟩
      intro card hc t ht
      exact (applyReload_global_tags inp t).mpr ⟨card, hc, ht⟩
    | @step s0 t0 hs hstep ih =>
      obtain ⟨ih1, ih2⟩ := ih
      cases hstep with
      | add c hwfid hwfcat hfresh =>
        refine ⟨sortedUnion_sorted _ _, ?_⟩
        intro card hc t ht
        show t ∈ sortedUnion s0.global_tags c.tags
        rw [mem_sortedUnion]
        rcases List.mem_append.mp hc with h1 | h1
        · exact Or.inl (ih2 card h1 t ht)
        · rw [List.mem_singleton] at h1
          subst h1
          exact Or.inr ht
      | del card_id =>
        cases hl : lookupCard s0 card_id with
        | none => simp only [delete_card_update, hl]; exact ⟨ih1, ih2⟩
        | some card =>
          simp only [delete_card_update, hl]
          refine ⟨ih1, ?_⟩
          intro x hx t ht
          exact ih2 x ((List.eraseP_sublist s0.cards).subset hx) t ht
      | upd card_id p hwfcat =>
        cases hl : lookupCard s0 card_id with
        | none => simp only [update_card_data, hl]; exact ⟨ih1, ih2⟩
        | some card =>
          simp only [update_card_data, hl]
          cases hp : p.tags with
          | none =>
            refine ⟨ih1, ?_⟩
            intro x hx t ht
            rcases mem_replaceCard _ _ _ _ hx with rfl | hxs
            · have he : t ∈ p.tags.getD card.tags := ht
              rw [hp] at he
              exact ih2 card (lookupCard_mem _ _ _ hl) t he
            · exact ih2 x hxs t ht
          | some ts =>
            refine ⟨sortedUnion_sorted _ _, ?_⟩
            intro x hx t ht
            show t ∈ sortedUnion s0.global_tags ts
            rw [mem_sortedUnion]
            rcases mem_replaceCard _ _ _ _ hx with rfl | hxs
            · have he : t ∈ p.tags.getD card.tags := ht
              rw [hp] at he
              exact Or.inr he
            · exact Or.inl (ih2 x hxs t ht)
      | tags card_id new_tags =>
        cases hl : lookupCard s0 card_id with
        | none => simp only [update_tags_update, hl]; exact ⟨ih1, ih2⟩
        | some card =>
          simp only [update_tags_update, hl]
          refine ⟨sortedUnion_sorted _ _, ?_⟩
          intro x hx t ht
          rw [mem_sortedUnion]
          rcases mem_replaceCard _ _ _ _ hx with rfl | hxs
          · exact Or.inr ht
          · exact Or.inl (ih2 x hxs t ht)
      | fav card_id bst =>
        cases hl : lookupCard s0 card_id with
        | none => simp only [toggle_favorite_update, hl]; exact ⟨ih1, ih2⟩
        | some card =>
          simp only [toggle_favorite_update, hl]
          refine ⟨ih1, ?_⟩
          intro x hx t ht
          rcases mem_replaceCard _ _ _ _ hx with rfl | hxs
          · exact ih2 card (lookupCard_mem _ _ _ hl) t ht
          · exact ih2 x hxs t ht
      | move old_id new_id old_category new_category new_filename mt hwfid hwfcat hold hfresh =>
        cases hl : lookupCard s0 old_id with
        | none => simp only [move_card_update, hl]; exact ⟨ih1, ih2⟩
        | some card =>
          simp only [move_card_update, hl]
          by_cases hcat : old_category ≠ new_category
          · rw [if_pos hcat]
            refine ⟨ih1, ?_⟩
            intro x hx t ht
            rcases mem_replaceCard _ _ _ _ hx with rfl | hxs
            · exact ih2 card (lookupCard_mem _ _ _ hl) t ht
            · exact ih2 x hxs t ht
          · rw [if_neg hcat]
            refine ⟨ih1, ?_⟩
            intro x hx t ht
            rcases mem_replaceCard _ _ _ _ hx with rfl | hxs
            · exact ih2 card (lookupCard_mem _ _ _ hl) t ht
            · exact ih2 x hxs t ht
      | movedir oldP newP hwfold hwfnew hfresh =>
        refine ⟨ih1, ?_⟩
        intro x hx t ht
        show t ∈ s0.global_tags
        obtain ⟨c, hc, hce⟩ := List.mem_map.mp hx
        by_cases hst : strStarts (oldP ++ "/") c.id = true
        · rw [if_pos hst] at hce
          have he : x.tags = c.tags := by rw [← hce]; rfl
          exact ih2 c hc t (he ▸ ht)
        · rw [if_neg hst] at hce
          subst hce
          exact ih2 _ hc t ht
  exact ⟨main.1, main.2, applyReload_global_tags⟩


/-- C9 fails on the code: `update_tags_update` only adds the new tags to the
pool and never removes dropped ones, so after removing tag "b" from the only
card carrying it, `global_tags` still lists "b". -/
theorem c9_counterexample :
    (update_tags_update (applyReload inpA) "Cats/Tom.png" ["a"]).global_tags =
      ["a", "b"] ∧
    (update_tags_update (applyReload inpA) "Cats/Tom.png" ["a"]).cards.flatMap
      (fun c => c.tags) = ["a", "a"] ∧
    ¬((update_tags_update (applyReload inpA) "Cats/Tom.png" ["a"]).global_tags =
      sortStr (dedupKeep ((update_tags_update (applyReload inpA) "Cats/Tom.png"
        ["a"]).cards.flatMap (fun c => c.tags)))) := by decide

theorem c9_witness :
    (applyReload inpA).global_tags.Pairwise (fun a b => strLe a b = true) ∧
    ("a" ∈ (applyReload inpA).global_tags ↔
      ∃ card ∈ (applyReload inpA).cards, "a" ∈ card.tags) := by
  have h := c9_global_tags_superset (applyReload inpA)
    (Reachable.rebuild inpA ⟨by decide, by decide, by decide⟩)
  exact ⟨h.1, h.2.2 inpA "a"⟩

theorem c4_witness :
    ((100 : ℚ) > 50 + 1/100 ∨ (500 : Int) ≠ 500) ∧
    scanFile (some ⟨50, 500, 3, "oldhash", 1⟩) ⟨100, 500⟩
        (some ⟨"n", "d", "f", "m", ["t"], "c", "v", 7, false, "w"⟩) "a.png" "" =
      ScanAction.upsert
        ⟨"a.png", "n", "d", "f", "m", ["t"], "", "c", "v", 100, "", 500, 7, false, "w", 1⟩ := by
  have h : (100 : ℚ) > 50 + 1/100 ∨ (500 : Int) ≠ 500 := Or.inl (by norm_num)
  exact ⟨h, (c4_scan_classification ⟨50, 500, 3, "oldhash", 1⟩ ⟨100, 500⟩
    ⟨"n", "d", "f", "m", ["t"], "c", "v", 7, false, "w"⟩ "a.png" "").2.1 h⟩

end STM
